import Mathlib

/-!
Shallow embedding of the `kimmove-blip/vote` backend (CGS homomorphic
encryption, Merkle eligibility tree, election lifecycle service, vote
submission service) together with proofs settling the specification claims.

All machine arithmetic is modelled over `Nat`/`Int` with explicit modular
reduction, mirroring Python's arbitrary-precision integers.
-/

namespace Vote

/-! ## Python-style modular arithmetic

`powMod b e p` models Python's three-argument `pow(b, e, p)` for a
non-negative exponent (fast modular exponentiation).  `modInv a p` models
`pow(a, -1, p)`, which raises `ValueError` when `a` is not invertible
(modelled as `none`).  `pyPow` models `pow(b, e, p)` for an `Int`
exponent, and `intMod` models Python's `%` with a positive modulus. -/

def powModF : Nat → Nat → Nat → Nat → Nat
  | 0, _, _, p => 1 % p
  | f + 1, b, e, p =>
    if e = 0 then 1 % p
    else
      let h := powModF f ((b * b) % p) (e / 2) p
      if e % 2 = 1 then (h * b) % p else h

def powMod (b e p : Nat) : Nat := powModF e b e p

/-- Fuel-based extended Euclid: `egcdF f a b = (s, t, g)` with
`s*a + t*b = g = gcd a b` whenever `b ≤ f` (fuel-based so that the kernel
can evaluate it). -/
def egcdF : Nat → Nat → Nat → Int × Int × Nat
  | 0, a, _ => (1, 0, a)
  | f + 1, a, b =>
    if b = 0 then (1, 0, a)
    else
      let r := egcdF f b (a % b)
      (r.2.1, r.1 - r.2.1 * ((a / b : Nat) : Int), r.2.2)

/-- Modular inverse via the extended Euclidean algorithm; models Python's
`pow(a, -1, m)`, which raises `ValueError` when `gcd(a, m) ≠ 1`. -/
def modInv (a m : Nat) : Option Nat :=
  if Nat.gcd a m = 1 then some (((egcdF m a m).1 % (m : Int)).toNat) else none

/-- Python's `%` for an `Int` dividend and positive `Nat` modulus (the
result is the canonical non-negative representative). -/
def intMod (a : Int) (m : Nat) : Nat := (a % (m : Int)).toNat

/-- Python's `pow(b, e, p)` for an `Int` exponent: negative exponents go
through the modular inverse and raise (`none`) when it does not exist. -/
def pyPow (b : Nat) (e : Int) (p : Nat) : Option Nat :=
  if 0 ≤ e then some (powMod b e.toNat p)
  else (modInv b p).map fun i => powMod i e.natAbs p

/-! ## SHA-256

Executable SHA-256 over byte lists, modelling Python's `hashlib.sha256`.
Words are `Nat`s kept below `2^32` by explicit reduction.  Strings are
converted to bytes via code points, which coincides with UTF-8 for the
ASCII data this code base hashes (decimal digits, hex digits, `:`). -/

def sha256K : List Nat :=
  [1116352408, 1899447441, 3049323471, 3921009573, 961987163, 1508970993,
   2453635748, 2870763221, 3624381080, 310598401, 607225278, 1426881987,
   1925078388, 2162078206, 2614888103, 3248222580, 3835390401, 4022224774,
   264347078, 604807628, 770255983, 1249150122, 1555081692, 1996064986,
   2554220882, 2821834349, 2952996808, 3210313671, 3336571891, 3584528711,
   113926993, 338241895, 666307205, 773529912, 1294757372, 1396182291,
   1695183700, 1986661051, 2177026350, 2456956037, 2730485921, 2820302411,
   3259730800, 3345764771, 3516065817, 3600352804, 4094571909, 275423344,
   430227734, 506948616, 659060556, 883997877, 958139571, 1322822218,
   1537002063, 1747873779, 1955562222, 2024104815, 2227730452, 2361852424,
   2428436474, 2756734187, 3204031479, 3329325298]

def sha256H0 : List Nat :=
  [1779033703, 3144134277, 1013904242, 2773480762,
   1359893119, 2600822924, 528734635, 1541459225]

def rotr32 (n x : Nat) : Nat := x / 2 ^ n + x % 2 ^ n * 2 ^ (32 - n)

def not32 (x : Nat) : Nat := 4294967295 - x

def add32 (a b : Nat) : Nat := (a + b) % 4294967296

/-- Split a list into chunks of `n` elements (fuel-based recursion). -/
def chunksF (n : Nat) : Nat → List α → List (List α)
  | 0, _ => []
  | _ + 1, [] => []
  | f + 1, l => l.take n :: chunksF n f (l.drop n)

def chunks (n : Nat) (l : List α) : List (List α) := chunksF n l.length l

/-- Big-endian bytes of `n`, fixed width `len`. -/
def natToBEBytes (len n : Nat) : List Nat :=
  (List.range len).map fun i => n / 256 ^ (len - 1 - i) % 256

def word32OfBytes (bs : List Nat) : Nat :=
  bs.foldl (fun acc b => acc * 256 + b) 0

def word32ToBytes (w : Nat) : List Nat :=
  [w / 2 ^ 24 % 256, w / 2 ^ 16 % 256, w / 2 ^ 8 % 256, w % 256]

/-- SHA-256 padding: append `0x80`, zero bytes, then the 64-bit big-endian
bit length. -/
def sha256Pad (msg : List Nat) : List Nat :=
  let l := msg.length
  let zeros := (64 + 56 - (l + 1) % 64) % 64
  msg ++ [0x80] ++ List.replicate zeros 0 ++ natToBEBytes 8 (8 * l)

/-- Message-schedule extension: grow the 16 block words to 64. -/
def sha256Schedule : Nat → List Nat → List Nat
  | 0, w => w
  | f + 1, w =>
    let n := w.length
    let s0 :=
      let x := w.getD (n - 15) 0
      rotr32 7 x ^^^ rotr32 18 x ^^^ x / 2 ^ 3
    let s1 :=
      let x := w.getD (n - 2) 0
      rotr32 17 x ^^^ rotr32 19 x ^^^ x / 2 ^ 10
    sha256Schedule f (w ++ [(w.getD (n - 16) 0 + s0 + w.getD (n - 7) 0 + s1) % 4294967296])

/-- One compression round; the state is `[a,b,c,d,e,f,g,h]`. -/
def sha256Round (st : List Nat) (wk : Nat × Nat) : List Nat :=
  match st with
  | [a, b, c, d, e, f, g, h] =>
    let s1 := rotr32 6 e ^^^ rotr32 11 e ^^^ rotr32 25 e
    let ch := (e &&& f) ^^^ (not32 e &&& g)
    let temp1 := (h + s1 + ch + wk.2 + wk.1) % 4294967296
    let s0 := rotr32 2 a ^^^ rotr32 13 a ^^^ rotr32 22 a
    let maj := (a &&& b) ^^^ (a &&& c) ^^^ (b &&& c)
    let temp2 := (s0 + maj) % 4294967296
    [add32 temp1 temp2, a, b, c, add32 d temp1, e, f, g]
  | other => other

def sha256Block (st : List Nat) (block : List Nat) : List Nat :=
  let w := sha256Schedule 48 ((chunks 4 block).map word32OfBytes)
  let out := (w.zip sha256K).foldl sha256Round st
  (st.zip out).map fun x => add32 x.1 x.2

def sha256Bytes (msg : List Nat) : List Nat :=
  let blocks := chunks 64 (sha256Pad msg)
  let final := blocks.foldl sha256Block sha256H0
  final.flatMap word32ToBytes

def strBytes (s : String) : List Nat := s.data.map Char.toNat

def hexDigit (n : Nat) : Char := "0123456789abcdef".data.getD n '0'

def bytesToHex (bs : List Nat) : String :=
  String.mk (bs.flatMap fun b => [hexDigit (b / 16), hexDigit (b % 16)])

/-- `hashlib.sha256(s.encode()).hexdigest()` -/
def sha256HexStr (s : String) : String := bytesToHex (sha256Bytes (strBytes s))

/-- `int(hashlib.sha256(s.encode()).hexdigest(), 16)` -/
def sha256NatOfStr (s : String) : Nat :=
  (sha256Bytes (strBytes s)).foldl (fun acc b => acc * 256 + b) 0

/-! ## CGS protocol data model (`cgs_protocol.py`)

`CGSProtocol` instance state is the triple `(p, q, g)`; the functions
below take it (or a `PublicKey` carrying it) explicitly.  Randomness
drawn with `secrets.*` in the source is passed in as an argument. -/

structure PublicKey where
  p : Nat
  q : Nat
  g : Nat
  h : Nat
deriving DecidableEq, Repr

structure PrivateKey where
  x : Nat
deriving DecidableEq, Repr

structure Ciphertext where
  c1 : Nat
  c2 : Nat
deriving DecidableEq, Repr

structure KeyShare where
  index : Nat
  share : Nat
  verificationPoint : Nat
deriving DecidableEq, Repr

/-- `CGSProtocol.DEFAULT_P`: the published 2048-bit safe prime. -/
def defaultP : Nat :=
  0xFFFFFFFFFFFFFFFFC90FDAA22168C234C4C6628B80DC1CD129024E088A67CC74020BBEA63B139B22514A08798E3404DDEF9519B3CD3A431B302B0A6DF25F14374FE1356D6D51C245E485B576625E7EC6F44C42E9A637ED6B0BFF5CB6F406B7EDEE386BFB5A899FA5AE9F24117C4B1FE649286651ECE45B3DC2007CB8A163BF0598DA48361C55D39A69163FA8FD24CF5F83655D23DCA3AD961C62F356208552BB9ED529077096966D670C354E4ABC9804F1746C08CA237327FFFFFFFFFFFFFFFF

def defaultG : Nat := 2

def defaultQ : Nat := (defaultP - 1) / 2

/-- `CGSProtocol.encrypt` with explicit randomness. -/
def encrypt (pk : PublicKey) (message randomness : Nat) : Ciphertext :=
  let c1 := powMod pk.g randomness pk.p
  let hr := powMod pk.h randomness pk.p
  let gm := powMod pk.g message pk.p
  { c1 := c1, c2 := hr * gm % pk.p }

/-- Baby-step table size `⌈√max_value⌉` for the fixed
`max_value = 10000000` (no caller of `_discrete_log` overrides it). -/
def bsgsM : Nat := 3163

/-- Exponents recoverable by the giant-step loop lie below `bsgsM ^ 2`. -/
def dlogBound : Nat := 10004569

/-- Baby-step accumulator: `baby_steps[g_j] = j` with dict overwrite
semantics, modelled as an association list with the most recent insertion
first (so `List.find?` returns what the Python dict lookup returns). -/
def babyStepsAcc (g p : Nat) : Nat → Nat → Nat → List (Nat × Nat) → List (Nat × Nat)
  | 0, _, _, acc => acc
  | f + 1, j, gj, acc => babyStepsAcc g p f (j + 1) (gj * g % p) ((gj, j) :: acc)

def babySteps (g p m : Nat) : List (Nat × Nat) := babyStepsAcc g p m 0 (1 : Nat) []

/-- The giant-step loop of `_discrete_log`; running out of fuel models the
`ValueError("Discrete log not found in range")`. -/
def giantLoop (table : List (Nat × Nat)) (gminv p mhat : Nat) :
    Nat → Nat → Nat → Option Nat
  | 0, _, _ => none
  | f + 1, i, gamma =>
    match table.find? fun e => e.1 == gamma with
    | some e => some (i * mhat + e.2)
    | none => giantLoop table gminv p mhat f (i + 1) (gamma * gminv % p)

/-- `CGSProtocol._discrete_log` (baby-step giant-step). -/
def discreteLog (gm : Nat) (pk : PublicKey) : Option Nat :=
  let table := babySteps pk.g pk.p bsgsM
  match modInv pk.g pk.p with
  | none => none
  | some ginv => giantLoop table (powMod ginv bsgsM pk.p) pk.p bsgsM bsgsM 0 gm

/-- `CGSProtocol.decrypt`; `pow(c1_x, -1, p)` raising is `none`. -/
def decrypt (ct : Ciphertext) (sk : PrivateKey) (pk : PublicKey) : Option Nat :=
  let c1x := powMod ct.c1 sk.x pk.p
  match modInv c1x pk.p with
  | none => none
  | some c1xInv => discreteLog (ct.c2 * c1xInv % pk.p) pk

/-- `CGSProtocol.homomorphic_add` on deserialized ciphertexts; `p` is the
protocol modulus `self.p`. -/
def homomorphicAdd (p : Nat) (ct1 ct2 : Ciphertext) : Ciphertext :=
  { c1 := ct1.c1 * ct2.c1 % p, c2 := ct1.c2 * ct2.c2 % p }

/-- Polynomial evaluation as in `generate_threshold_keys`:
`share_value = (share_value + coef * pow(i, j, q)) % q` over the
coefficient list. -/
def evalShare (q : Nat) (coefficients : List Nat) (i : Nat) : Nat :=
  coefficients.enum.foldl (fun acc cj => (acc + cj.2 * powMod i cj.1 q) % q) 0

/-- `CGSProtocol.generate_threshold_keys` after the keypair draw: the
coefficient list is `[x] ++ random`, and share `i` carries
`g^{f(i) mod q} mod p` as its verification point. -/
def sharesFromCoeffs (p q g : Nat) (coefficients : List Nat) (totalShares : Nat) :
    List KeyShare :=
  (List.range totalShares).map fun i0 =>
    let i := i0 + 1
    let s := evalShare q coefficients i
    { index := i, share := s, verificationPoint := powMod g s p }

/-- `CGSProtocol._lagrange_coefficient`; the running numerator and
denominator follow Python's signed `%` then are combined through the
modular inverse (`none` models the `ValueError` of `pow(d, -1, q)`). -/
def lagrangeCoefficient (i : Nat) (indices : List Nat) (q : Nat) : Option Nat :=
  let nd := indices.foldl
    (fun (acc : Int × Int) j =>
      if i ≠ j then
        (acc.1 * (-(j : Int)) % (q : Int), acc.2 * ((i : Int) - (j : Int)) % (q : Int))
      else acc)
    (1, 1)
  (modInv nd.2.toNat q).map fun dinv => (nd.1.toNat * dinv) % q

/-- `CGSProtocol.threshold_decrypt`.  The partial decryptions, the
Lagrange-weighted combination, and the final discrete log; any raising
sub-step is `none`. -/
def thresholdDecrypt (ct : Ciphertext) (shares : List KeyShare) (pk : PublicKey) :
    Option Nat :=
  let partials := shares.map fun s => (s.index, powMod ct.c1 s.share pk.p)
  let indices := partials.map Prod.fst
  let combined := partials.foldl
    (fun (acc : Option Nat) pd =>
      acc.bind fun c =>
        (lagrangeCoefficient pd.1 indices pk.q).map fun li =>
          c * powMod pd.2 li pk.p % pk.p)
    (some 1)
  combined.bind fun c =>
    (modInv c pk.p).bind fun cinv =>
      discreteLog (ct.c2 * cinv % pk.p) pk

/-- `CGSProtocol.combine_key_shares` (on deserialized shares; `q` is the
protocol order `self.q`). -/
def combineKeyShares (q : Nat) (shares : List KeyShare) : Option PrivateKey :=
  let indices := shares.map KeyShare.index
  let secret := shares.foldl
    (fun (acc : Option Nat) s =>
      acc.bind fun t =>
        (lagrangeCoefficient s.index indices q).map fun li =>
          (t + s.share * li) % q)
    (some 0)
  secret.map fun x => { x := x }

/-- `CGSProtocol.verify_key_share_proof` on a deserialized share (the
`proof` argument is parsed but never used by the source). -/
def verifyKeyShareProof (p g : Nat) (share : KeyShare) : Bool :=
  powMod g share.share p == share.verificationPoint

/-! ## Merkle tree (`zokrates_engine.py`, class `MerkleTree`) -/

/-- `_compute_zeros`: `zeros[0] = sha256(b"0")`, `zeros[l+1] = sha256(zeros[l] + zeros[l])`. -/
def zeroHash : Nat → String
  | 0 => sha256HexStr "0"
  | n + 1 => sha256HexStr (zeroHash n ++ zeroHash n)

/-- `MerkleTree._hash_pair` -/
def hashPair (left right : String) : String := sha256HexStr (left ++ right)

structure MerkleTree where
  depth : Nat
  leaves : List String
deriving DecidableEq, Repr

/-- The `while len(current_level) < 2 ** self.depth: append(zeros[0])`
padding common to `get_root` and `get_proof`. -/
def padded (t : MerkleTree) : List String :=
  t.leaves ++ List.replicate (2 ^ t.depth - t.leaves.length) (zeroHash 0)

/-- One level of bottom-up hashing: pairs at `i, i+1`, with `zeros[level]`
substituted when `i+1` runs past the end. -/
def pairUp (z : String) : List String → List String
  | [] => []
  | [a] => [hashPair a z]
  | a :: b :: rest => hashPair a b :: pairUp z rest

def levelsLoop : Nat → Nat → List String → List String
  | 0, _, lvl => lvl
  | f + 1, level, lvl => levelsLoop f (level + 1) (pairUp (zeroHash level) lvl)

/-- `MerkleTree.get_root` -/
def getRoot (t : MerkleTree) : String :=
  if t.leaves.isEmpty then zeroHash t.depth
  else (levelsLoop t.depth 0 (padded t)).headD ""

/-- The per-level body of `get_proof`: record the sibling and direction
bit, then move up one level. -/
def proofLoop : Nat → Nat → Nat → List String → List String × List Nat
  | 0, _, _, _ => ([], [])
  | f + 1, level, idx, lvl =>
    let sibIdx := if idx % 2 = 0 then idx + 1 else idx - 1
    let bit := if idx % 2 = 0 then 0 else 1
    let sib := if sibIdx < lvl.length then lvl.getD sibIdx "" else zeroHash level
    let rest := proofLoop f (level + 1) (idx / 2) (pairUp (zeroHash level) lvl)
    (sib :: rest.1, bit :: rest.2)

/-- `MerkleTree.get_proof`; `none` models the `ValueError("Index out of range")`. -/
def getProof (t : MerkleTree) (index : Nat) : Option (List String × List Nat) :=
  if t.leaves.length ≤ index then none
  else some (proofLoop t.depth 0 index (padded t))

/-- `MerkleTree.verify_proof` -/
def verifyProof (leaf : String) (path : List String) (indices : List Nat)
    (root : String) : Bool :=
  (path.zip indices).foldl
    (fun cur si => if si.2 = 0 then hashPair cur si.1 else hashPair si.1 cur) leaf == root

/-! ## Disjunctive encryption proof (`generate/verify_encryption_proof`) -/

/-- The parsed proof payload `{c0, c1, r0, r1, seed}`.  Values come out of
JSON, so the numeric fields are `Int`. -/
structure EncProof where
  c0 : Int
  c1 : Int
  r0 : Int
  r1 : Int
  seed : String
deriving DecidableEq, Repr

/-- `int(sha256(f"{c1}:{c2}:{a}:{b}:{seed}").hexdigest(), 16) % q` -/
def challengeHash (c1 c2 a b : Nat) (seed : String) (q : Nat) : Nat :=
  sha256NatOfStr
    (Nat.repr c1 ++ ":" ++ Nat.repr c2 ++ ":" ++ Nat.repr a ++ ":" ++ Nat.repr b
      ++ ":" ++ seed) % q

/-- `CGSProtocol.generate_encryption_proof` with the four `secrets.*`
draws (`challenge_seed`, `k`, `fake_challenge`, `fake_response`) passed
in.  Both source branches compute the same `real_challenge` and
`real_response`; they differ only in field placement. -/
def generateEncryptionProof (ct : Ciphertext) (message randomness : Nat)
    (pk : PublicKey) (seed : String) (k fakeChallenge fakeResponse : Nat) : EncProof :=
  let a := powMod pk.g k pk.p
  let b := powMod pk.h k pk.p
  let totalChallenge := challengeHash ct.c1 ct.c2 a b seed pk.q
  let realChallenge := intMod ((totalChallenge : Int) - (fakeChallenge : Int)) pk.q
  let realResponse := intMod ((k : Int) - (realChallenge : Int) * (randomness : Int)) pk.q
  if message = 0 then
    { c0 := realChallenge, c1 := fakeChallenge, r0 := realResponse,
      r1 := fakeResponse, seed := seed }
  else
    { c0 := fakeChallenge, c1 := realChallenge, r0 := fakeResponse,
      r1 := realResponse, seed := seed }

/-- `CGSProtocol.verify_encryption_proof` on a parsed proof.  Every
sub-step that can raise inside the `try` yields `none`, and the trailing
`except Exception: return False` is the final `getD false`. -/
def verifyEncryptionProofData (ct : Ciphertext) (pr : EncProof) (pk : PublicKey) : Bool :=
  (do
    let gr0 ← pyPow pk.g pr.r0 pk.p
    let c1c0 ← pyPow ct.c1 pr.c0 pk.p
    let a0 := gr0 * c1c0 % pk.p
    let hr0 ← pyPow pk.h pr.r0 pk.p
    let c2c0 ← pyPow ct.c2 pr.c0 pk.p
    let b0 := hr0 * c2c0 % pk.p
    let ginv ← modInv pk.g pk.p
    let c2DivG := ct.c2 * ginv % pk.p
    let gr1 ← pyPow pk.g pr.r1 pk.p
    let c1c1 ← pyPow ct.c1 pr.c1 pk.p
    let _a1 := gr1 * c1c1 % pk.p
    let hr1 ← pyPow pk.h pr.r1 pk.p
    let cdg1 ← pyPow c2DivG pr.c1 pk.p
    let _b1 := hr1 * cdg1 % pk.p
    if pk.q = 0 then none
    else
      let expected := challengeHash ct.c1 ct.c2 a0 b0 pr.seed pk.q
      some (intMod (pr.c0 + pr.c1) pk.q == expected)).getD false

/-! ## JSON object parsing (`json.loads` as used by `verify_encryption_proof`)

A executable model of the subset of JSON relevant to proof payloads:
a top-level object whose member values are integers, strings, booleans
(Python `bool` is an `int`, so `true`/`false` arithmetic works), `null`,
or nested containers (which `pow` then rejects with a `TypeError`). -/

inductive JVal where
  | jint (i : Int)
  | jstr (s : String)
  | jother
deriving DecidableEq, Repr

def isJsonWs (c : Char) : Bool :=
  c = ' ' ∨ c = '\t' ∨ c = '\n' ∨ c = '\r'

def skipWs : List Char → List Char
  | c :: rest => if isJsonWs c then skipWs rest else c :: rest
  | [] => []

def hexVal (c : Char) : Option Nat :=
  if '0' ≤ c ∧ c ≤ '9' then some (c.toNat - 48)
  else if 'a' ≤ c ∧ c ≤ 'f' then some (c.toNat - 87)
  else if 'A' ≤ c ∧ c ≤ 'F' then some (c.toNat - 55)
  else none

def escChar (c : Char) : Option Char :=
  if c = '"' then some '"'
  else if c = '\\' then some '\\'
  else if c = '/' then some '/'
  else if c = 'n' then some '\n'
  else if c = 't' then some '\t'
  else if c = 'r' then some '\r'
  else if c = 'b' then some (Char.ofNat 8)
  else if c = 'f' then some (Char.ofNat 12)
  else none

/-- Body of a JSON string literal (after the opening quote). -/
def parseStrAux : Nat → List Char → Option (List Char × List Char)
  | 0, _ => none
  | _ + 1, [] => none
  | f + 1, c :: rest =>
    if c = '"' then some ([], rest)
    else if c = '\\' then
      match rest with
      | [] => none
      | e :: rest2 =>
        if e = 'u' then
          match rest2 with
          | h1 :: h2 :: h3 :: h4 :: rest3 => do
            let v1 ← hexVal h1
            let v2 ← hexVal h2
            let v3 ← hexVal h3
            let v4 ← hexVal h4
            let tail ← parseStrAux f rest3
            some (Char.ofNat (((v1 * 16 + v2) * 16 + v3) * 16 + v4) :: tail.1, tail.2)
          | _ => none
        else do
          let ec ← escChar e
          let tail ← parseStrAux f rest2
          some (ec :: tail.1, tail.2)
    else do
      let tail ← parseStrAux f rest
      some (c :: tail.1, tail.2)

def parseDigits : List Char → List Char × List Char
  | c :: rest =>
    if c.isDigit then
      let dr := parseDigits rest
      (c :: dr.1, dr.2)
    else ([], c :: rest)
  | [] => ([], [])

def digitsToNat (ds : List Char) : Nat :=
  ds.foldl (fun acc c => acc * 10 + (c.toNat - 48)) 0

/-- JSON unsigned integer (no leading zeros). -/
def parseUInt (cs : List Char) : Option (Nat × List Char) :=
  match parseDigits cs with
  | ([], _) => none
  | (['0'], rest) => some (0, rest)
  | ('0' :: _ :: _, _) => none
  | (ds, rest) => some (digitsToNat ds, rest)

def parseIntLit : List Char → Option (Int × List Char)
  | '-' :: rest => (parseUInt rest).map fun x => (-(x.1 : Int), x.2)
  | cs => (parseUInt cs).map fun x => ((x.1 : Int), x.2)

/-- Skip a balanced nested container (already past the opening bracket,
`depth` pending closers); string literals are skipped atomically. -/
def skipContainer : Nat → Nat → List Char → Option (List Char)
  | 0, _, _ => none
  | _ + 1, _, [] => none
  | f + 1, depth, c :: rest =>
    if c = '"' then
      match parseStrAux (rest.length + 1) rest with
      | none => none
      | some x => skipContainer f depth x.2
    else if c = '{' ∨ c = '[' then skipContainer f (depth + 1) rest
    else if c = '}' ∨ c = ']' then
      match depth with
      | 1 => some rest
      | d + 2 => skipContainer f (d + 1) rest
      | 0 => none
    else skipContainer f depth rest

/-- A JSON value; containers are consumed but collapse to `jother`. -/
def parseVal (cs : List Char) : Option (JVal × List Char) :=
  match skipWs cs with
  | [] => none
  | '"' :: rest => (parseStrAux (rest.length + 1) rest).map fun x => (JVal.jstr (String.mk x.1), x.2)
  | '{' :: rest => (skipContainer (rest.length + 1) 1 rest).map fun r => (JVal.jother, r)
  | '[' :: rest => (skipContainer (rest.length + 1) 1 rest).map fun r => (JVal.jother, r)
  | 't' :: 'r' :: 'u' :: 'e' :: rest => some (JVal.jint 1, rest)
  | 'f' :: 'a' :: 'l' :: 's' :: 'e' :: rest => some (JVal.jint 0, rest)
  | 'n' :: 'u' :: 'l' :: 'l' :: rest => some (JVal.jother, rest)
  | cs2 => (parseIntLit cs2).map fun x => (JVal.jint x.1, x.2)

/-- Members of an object after the opening `{` (at least one member). -/
def parseMembers : Nat → List Char → Option (List (String × JVal) × List Char)
  | 0, _ => none
  | f + 1, cs => do
    let afterKey ← match skipWs cs with
      | '"' :: rest => parseStrAux (rest.length + 1) rest
      | _ => none
    let rest2 := skipWs afterKey.2
    match rest2 with
    | ':' :: rest3 => do
      let v ← parseVal rest3
      match skipWs v.2 with
      | ',' :: rest4 => do
        let tail ← parseMembers f rest4
        some ((String.mk afterKey.1, v.1) :: tail.1, tail.2)
      | '}' :: rest4 => some ([(String.mk afterKey.1, v.1)], rest4)
      | _ => none
    | _ => none

/-- `json.loads` restricted to a top-level object (anything else that
parses makes the subsequent subscripting raise, which the caller turns
into `False`; we fold that into the parse). -/
def parseJsonObj (s : String) : Option (List (String × JVal)) :=
  match skipWs s.data with
  | '{' :: rest =>
    match skipWs rest with
    | '}' :: tail => if (skipWs tail).isEmpty then some [] else none
    | rest2 => do
      let m ← parseMembers (rest2.length + 1) rest2
      if (skipWs m.2).isEmpty then some m.1 else none
  | _ => none

/-- Python dict lookup (later duplicate keys win). -/
def dictLookup (pairs : List (String × JVal)) (key : String) : Option JVal :=
  (pairs.reverse.find? fun kv => kv.1 == key).map Prod.snd

def asInt : JVal → Option Int
  | .jint i => some i
  | _ => none

/-- The seed is interpolated into an f-string, so both JSON strings and
JSON integers work. -/
def asSeed : JVal → Option String
  | .jstr s => some s
  | .jint i => some (Int.repr i)
  | _ => none

/-- Extraction of `c0, c1, r0, r1, seed` from the parsed proof JSON. -/
def parseProof (s : String) : Option EncProof := do
  let pairs ← parseJsonObj s
  let c0 ← (dictLookup pairs "c0").bind asInt
  let c1 ← (dictLookup pairs "c1").bind asInt
  let r0 ← (dictLookup pairs "r0").bind asInt
  let r1 ← (dictLookup pairs "r1").bind asInt
  let seed ← (dictLookup pairs "seed").bind asSeed
  some { c0 := c0, c1 := c1, r0 := r0, r1 := r1, seed := seed }

/-- `CGSProtocol.verify_encryption_proof` from the serialized proof
string: a parse/extraction failure is caught and yields `False`. -/
def verifyEncryptionProofStr (ct : Ciphertext) (proof : String) (pk : PublicKey) : Bool :=
  match parseProof proof with
  | none => false
  | some pr => verifyEncryptionProofData ct pr pk

/-! ## Election lifecycle (`models/election.py`, `election_service.py`)

Timestamps are `Nat` instants; `now` stands for `datetime.utcnow()`.
Python truthiness of nullable string columns (`None` and `""` both
falsy) is `optStrSet`.  `updated_at` bookkeeping is not modelled. -/

inductive ElectionStatus where
  | draft
  | pending
  | active
  | closed
  | tallying
  | completed
  | cancelled
deriving DecidableEq, Repr

inductive VotingMode where
  | single
  | multiLimited
  | periodicReset
deriving DecidableEq, Repr

def optStrSet : Option String → Bool
  | none => false
  | some s => !s.isEmpty

structure Election where
  id : Nat
  status : ElectionStatus
  startTime : Option Nat
  endTime : Option Nat
  votingMode : VotingMode
  maxCandidatesPerVoter : Nat
  maxVotesPerCandidate : Nat
  voterMerkleRoot : Option String
  electionPublicKey : Option String
  candidates : List String
deriving DecidableEq, Repr

/-- `Election.is_active` -/
def isActive (e : Election) (now : Nat) : Bool :=
  if e.status ≠ ElectionStatus.active then false
  else if (e.startTime.map fun st => decide (now < st)).getD false then false
  else if (e.endTime.map fun et => decide (et < now)).getD false then false
  else true

/-- The `valid_transitions` table of `ElectionService.update_status`. -/
def validTransitions : ElectionStatus → List ElectionStatus
  | .draft => [.pending, .cancelled]
  | .pending => [.active, .cancelled]
  | .active => [.closed, .cancelled]
  | .closed => [.tallying]
  | .tallying => [.completed]
  | .completed => []
  | .cancelled => []

/-- `ElectionService.update_status` on a fetched election: the guard
checks in source order, then the status mutation.  Rejections return the
election unchanged. -/
def updateStatus (e : Election) (newStatus : ElectionStatus) : Bool × Option String × Election :=
  if ¬ (validTransitions e.status).contains newStatus then
    (false, some "Invalid status transition", e)
  else if newStatus = ElectionStatus.active ∧ ¬ optStrSet e.electionPublicKey then
    (false, some "Election public key not set", e)
  else if newStatus = ElectionStatus.active ∧ ¬ optStrSet e.voterMerkleRoot then
    (false, some "Voter eligibility not configured", e)
  else if newStatus = ElectionStatus.active ∧ e.candidates.length < 2 then
    (false, some "Election must have at least 2 candidates", e)
  else
    (true, none, { e with status := newStatus })

/-! ## Vote service (`vote_service.py`)

The persistent store is a record of row lists; SQLAlchemy queries become
list searches, and a committed transaction is the returned state.
`secrets` draws (raw token, verification code) and the ZKP-engine and
Fabric-client outcomes are arguments. -/

structure VoteTokenRec where
  electionId : Nat
  tokenHash : String
  expiresAt : Nat
  usedAt : Option Nat
  isUsed : Bool
  encryptedVoterRef : String
deriving DecidableEq, Repr

structure VoteReceiptRec where
  electionId : Nat
  verificationCode : String
  votingPeriod : Nat
  encryptedVoteHash : String
  nullifierHash : String
  blockchainTxId : Option String
  blockNumber : Option String
  eligibilityProofHash : String
  validityProofHash : String
  confirmedAt : Option Nat
deriving DecidableEq, Repr

structure ParticipationRec where
  electionId : Nat
  voterHash : String
  votingPeriod : Nat
  votesByCandidate : List (String × Nat)
  totalVotesCast : Nat
deriving DecidableEq, Repr

structure AuditRec where
  electionId : Nat
  action : String
  actionHash : String
deriving DecidableEq, Repr

structure DBState where
  elections : List Election
  tokens : List VoteTokenRec
  receipts : List VoteReceiptRec
  participations : List ParticipationRec
  auditLogs : List AuditRec
deriving DecidableEq, Repr

/-- `core/security.py: hash_vote_token` -/
def hashVoteToken (token : String) : String := sha256HexStr token

/-- `VoteService._get_voter_hash` -/
def getVoterHash (userId : String) (electionId : Nat) : String :=
  sha256HexStr (userId ++ ":" ++ Nat.repr electionId)

/-- Result of `FabricClient.invoke_chaincode`. -/
structure FabricRes where
  txId : Option String
  blockNumber : Option String
deriving DecidableEq, Repr

/-- `VoteService._submit_to_blockchain`: a raising ledger call
(`ledgerResult = none`) is caught and replaced by an empty result —
"Log the error but don't fail the vote". -/
def submitToBlockchain (ledgerResult : Option FabricRes) : FabricRes :=
  ledgerResult.getD { txId := none, blockNumber := none }

/-- `VoteService.issue_vote_token`.  `nowIso` is the
`datetime.utcnow().isoformat()` interpolated into the voter reference;
30 minutes is 1800 time units.  Returns `((token, expires_at, error),
new state)`. -/
def issueVoteToken (db : DBState) (userId : String) (electionId : Nat)
    (now : Nat) (nowIso : String) (rawToken : String) :
    (Option String × Option Nat × Option String) × DBState :=
  match db.elections.find? fun e => e.id == electionId with
  | none => ((none, none, some "Election not found"), db)
  | some e =>
    if ¬ isActive e now then ((none, none, some "Election is not active"), db)
    else
      match db.tokens.find? fun t =>
          t.electionId == electionId && t.isUsed == false && decide (now < t.expiresAt) with
      | some _ => ((none, none, some "Active token already exists"), db)
      | none =>
        let tokenHash := hashVoteToken rawToken
        let expiresAt := now + 1800
        let voterRef := sha256HexStr (userId ++ ":" ++ Nat.repr electionId ++ ":" ++ nowIso)
        let tokenRec : VoteTokenRec :=
          { electionId := electionId, tokenHash := tokenHash, expiresAt := expiresAt,
            usedAt := none, isUsed := false, encryptedVoterRef := voterRef }
        let audit : AuditRec :=
          { electionId := electionId, action := "token_issued",
            actionHash := sha256HexStr tokenHash }
        ((some rawToken, some expiresAt, none),
          { db with tokens := db.tokens ++ [tokenRec], auditLogs := db.auditLogs ++ [audit] })

/-- Update every row matching `pred` (the store holds at most one such
row, per the `scalar_one_or_none` queries). -/
def updateWhere (l : List α) (pred : α → Bool) (f : α → α) : List α :=
  l.map fun x => if pred x then f x else x

/-- `votes_by_candidate[cand] = votes_by_candidate.get(cand, 0) + v` -/
def bumpAssoc (m : List (String × Nat)) (cand : String) (v : Nat) : List (String × Nat) :=
  if (m.find? fun kv => kv.1 == cand).isSome then
    m.map fun kv => if kv.1 == cand then (kv.1, kv.2 + v) else kv
  else m ++ [(cand, v)]

/-- `votes_by_candidate[cand] = v` -/
def setAssoc (m : List (String × Nat)) (cand : String) (v : Nat) : List (String × Nat) :=
  if (m.find? fun kv => kv.1 == cand).isSome then
    m.map fun kv => if kv.1 == cand then (kv.1, v) else kv
  else m ++ [(cand, v)]

/-- `VoteService.submit_vote` for an election in `SINGLE` voting mode
(`_check_voting_eligibility`'s `SINGLE` branch; `current_period = 0`).
`candidateSelections` is the parsed `candidate_selections` payload with
the per-selection `votes` already defaulted to 1 (`None` and `[]` are
both modelled by `[]`, matching Python truthiness).  The ZKP engine
outcomes and the ledger call result are inputs; `ledgerResult = none`
models `invoke_chaincode` raising.  Returns `((success, error), new
state)`; the state is only persisted by the final `commit`, so every
rejection returns `db` unchanged. -/
def submitVoteSingle (db : DBState) (electionId : Nat)
    (voteToken encryptedVote nullifier eligibilityProof validityProof : String)
    (candidateSelections : List (String × Nat)) (userId : String) (now : Nat)
    (eligibilityOk validityOk : Bool) (ledgerResult : Option FabricRes)
    (verificationCode : String) : (Bool × Option String) × DBState :=
  let tokenHash := hashVoteToken voteToken
  match db.tokens.find? fun t =>
      t.tokenHash == tokenHash && t.electionId == electionId && t.isUsed == false with
  | none => ((false, some "Invalid or already used token"), db)
  | some tokenRecord =>
    if decide (tokenRecord.expiresAt < now) then ((false, some "Token has expired"), db)
    else
      match db.elections.find? fun e => e.id == electionId with
      | none => ((false, some "Election is not active"), db)
      | some election =>
        if ¬ isActive election now then ((false, some "Election is not active"), db)
        else
          let voterHash := getVoterHash userId electionId
          let participation := db.participations.find? fun pr =>
            pr.voterHash == voterHash && pr.electionId == electionId && pr.votingPeriod == 0
          if (participation.map fun pr => decide (0 < pr.totalVotesCast)).getD false then
            ((false, some "이미 투표하셨습니다 (1인 1투표)"), db)
          else
            match db.receipts.find? fun r =>
                r.electionId == electionId && r.nullifierHash == nullifier with
            | some _ => ((false, some "Vote already submitted (duplicate nullifier)"), db)
            | none =>
              if ¬ eligibilityOk then ((false, some "Invalid eligibility proof"), db)
              else if ¬ validityOk then ((false, some "Invalid validity proof"), db)
              else
                let encryptedVoteHash := sha256HexStr encryptedVote
                let blockchainResult := submitToBlockchain ledgerResult
                let receipt : VoteReceiptRec :=
                  { electionId := electionId, verificationCode := verificationCode,
                    votingPeriod := 0, encryptedVoteHash := encryptedVoteHash,
                    nullifierHash := nullifier,
                    blockchainTxId := blockchainResult.txId,
                    blockNumber := blockchainResult.blockNumber,
                    eligibilityProofHash := sha256HexStr eligibilityProof,
                    validityProofHash := sha256HexStr validityProof,
                    confirmedAt := if blockchainResult.txId.isSome then some now else none }
                let votesCount :=
                  if candidateSelections.isEmpty then 1
                  else (candidateSelections.map Prod.snd).sum
                let participations2 :=
                  match participation with
                  | some _ =>
                    updateWhere db.participations
                      (fun pr => pr.voterHash == voterHash && pr.electionId == electionId
                        && pr.votingPeriod == 0)
                      (fun pr =>
                        { pr with
                          totalVotesCast := pr.totalVotesCast + votesCount,
                          votesByCandidate :=
                            if candidateSelections.isEmpty then pr.votesByCandidate
                            else candidateSelections.foldl
                              (fun m s => bumpAssoc m s.1 s.2) pr.votesByCandidate })
                  | none =>
                    db.participations ++
                      [{ electionId := electionId, voterHash := voterHash, votingPeriod := 0,
                         votesByCandidate :=
                           candidateSelections.foldl (fun m s => setAssoc m s.1 s.2) [],
                         totalVotesCast := votesCount }]
                let tokens2 := updateWhere db.tokens
                  (fun t => t.tokenHash == tokenHash && t.electionId == electionId
                    && t.isUsed == false)
                  (fun t => { t with isUsed := true, usedAt := some now })
                let audit : AuditRec :=
                  { electionId := electionId, action := "vote_submitted",
                    actionHash := encryptedVoteHash }
                ((true, none),
                  { db with
                    receipts := db.receipts ++ [receipt],
                    participations := participations2,
                    tokens := tokens2,
                    auditLogs := db.auditLogs ++ [audit] })

/-- The value of the Lagrange coefficient for index `i` over index list
`S`, in the field `ZMod q`. -/
def lamCast (q i : Nat) (S : List Nat) : ZMod q :=
  ((S.filter fun j => i ≠ j).map fun j : Nat => -(j : ZMod q)).prod
    * (((S.filter fun j => i ≠ j).map fun j : Nat => (i : ZMod q) - (j : ZMod q)).prod)⁻¹


theorem powModF_eq (f : Nat) : ∀ b e, e ≤ f → ∀ p, powModF f b e p = b ^ e % p := by
  induction f with
  | zero =>
    intro b e he p
    have h0 : e = 0 := Nat.le_zero.mp he
    subst h0
    simp [powModF]
  | succ f ih =>
    intro b e he p
    rw [powModF]
    by_cases h0 : e = 0
    · subst h0; simp
    · rw [if_neg h0]
      have hehalf : e / 2 ≤ f := by omega
      have hrec := ih ((b * b) % p) (e / 2) hehalf p
      have hbase : ((b * b) % p) ^ (e / 2) % p = b ^ (2 * (e / 2)) % p := by
        rw [← Nat.pow_mod]
        have hbb : b * b = b ^ 2 := (pow_two b).symm
        rw [hbb, ← pow_mul]
      simp only [hrec, hbase]
      by_cases h1 : e % 2 = 1
      · rw [if_pos h1, Nat.mod_mul_mod, ← pow_succ]
        have hexp : 2 * (e / 2) + 1 = e := by omega
        rw [hexp]
      · rw [if_neg h1]
        have hexp : 2 * (e / 2) = e := by omega
        rw [hexp]

theorem powMod_eq (b e p : Nat) : powMod b e p = b ^ e % p :=
  powModF_eq e b e (Nat.le_refl e) p

theorem egcdF_spec : ∀ f a b, b ≤ f →
    (egcdF f a b).2.2 = Nat.gcd a b ∧
    (egcdF f a b).1 * (a : Int) + (egcdF f a b).2.1 * (b : Int)
      = ((egcdF f a b).2.2 : Int) := by
  intro f
  induction f with
  | zero =>
    intro a b hb
    have hb0 : b = 0 := Nat.le_zero.mp hb
    subst hb0
    constructor
    · rw [egcdF, Nat.gcd_zero_right]
    · rw [egcdF]
      push_cast
      ring
  | succ f ih =>
    intro a b hb
    rw [egcdF]
    by_cases hb0 : b = 0
    · subst hb0
      rw [if_pos rfl]
      constructor
      · rw [Nat.gcd_zero_right]
      · push_cast; ring
    · rw [if_neg hb0]
      have hmodle : a % b ≤ f := by
        have := Nat.mod_lt a (Nat.pos_of_ne_zero hb0)
        omega
      have ihr := ih b (a % b) hmodle
      constructor
      · rw [ihr.1, Nat.gcd_comm b (a % b), ← Nat.gcd_rec, Nat.gcd_comm]
      · have hdm : (a : Int) = (b : Int) * ((a / b : Nat) : Int) + ((a % b : Nat) : Int) := by
          exact_mod_cast (Nat.div_add_mod a b).symm
        calc (egcdF f b (a % b)).2.1 * (a : Int)
              + ((egcdF f b (a % b)).1
                - (egcdF f b (a % b)).2.1 * ((a / b : Nat) : Int)) * (b : Int)
            = (egcdF f b (a % b)).1 * (b : Int)
              + (egcdF f b (a % b)).2.1 * ((a % b : Nat) : Int) := by rw [hdm]; ring
          _ = ((egcdF f b (a % b)).2.2 : Int) := ihr.2

theorem modInv_lt {a m v : Nat} (hm : 0 < m) (h : modInv a m = some v) : v < m := by
  unfold modInv at h
  by_cases hg : Nat.gcd a m = 1
  · rw [if_pos hg] at h
    have hv := (Option.some_inj.mp h).symm
    subst hv
    have hmod : (egcdF m a m).1 % (m : Int) < (m : Int) :=
      Int.emod_lt_of_pos _ (by exact_mod_cast hm)
    omega
  · rw [if_neg hg] at h
    exact absurd h (by simp)

theorem modInv_mul {a m v : Nat} (hm : 0 < m) (h : modInv a m = some v) :
    (a * v) % m = 1 % m := by
  unfold modInv at h
  by_cases hg : Nat.gcd a m = 1
  · rw [if_pos hg] at h
    have hv := (Option.some_inj.mp h).symm
    subst hv
    have hspec := egcdF_spec m a m (Nat.le_refl m)
    have hbezout : (egcdF m a m).1 * (a : Int) + (egcdF m a m).2.1 * (m : Int) = 1 := by
      rw [hspec.2, hspec.1, hg]
      norm_num
    have hnonneg : (0 : Int) ≤ (egcdF m a m).1 % (m : Int) :=
      Int.emod_nonneg _ (by exact_mod_cast hm.ne')
    have hkey : ((a * ((egcdF m a m).1 % (m : Int)).toNat : Nat) : Int) % m
        = (1 : Int) % m := by
      push_cast
      rw [Int.toNat_of_nonneg hnonneg]
      have hmm : (a : Int) * ((egcdF m a m).1 % (m : Int)) % m
          = (a : Int) * (egcdF m a m).1 % m := by
        rw [Int.mul_emod, Int.emod_emod_of_dvd _ (dvd_refl _), ← Int.mul_emod]
      rw [hmm]
      calc (a : Int) * (egcdF m a m).1 % m
          = ((egcdF m a m).1 * (a : Int) + (egcdF m a m).2.1 * (m : Int)) % m := by
            rw [Int.add_mul_emod_self]
            ring_nf
        _ = (1 : Int) % m := by rw [hbezout]
    exact_mod_cast hkey
  · rw [if_neg hg] at h
    exact absurd h (by simp)

theorem modInv_isSome {a m : Nat} (hg : Nat.gcd a m = 1) : (modInv a m).isSome := by
  unfold modInv
  rw [if_pos hg]
  rfl

theorem intMod_lt {a : Int} {m : Nat} (hm : 0 < m) : intMod a m < m := by
  unfold intMod
  have h1 : a % (m : Int) < m := Int.emod_lt_of_pos _ (by exact_mod_cast hm)
  have h2 : (0 : Int) ≤ a % (m : Int) := Int.emod_nonneg _ (by exact_mod_cast hm.ne')
  omega

theorem intMod_coe {a : Int} {m : Nat} (hm : 0 < m) : (intMod a m : Int) = a % (m : Int) := by
  unfold intMod
  exact Int.toNat_of_nonneg (Int.emod_nonneg _ (by exact_mod_cast hm.ne'))

theorem pyPow_ofNat (b : Nat) (e : Nat) (p : Nat) : pyPow b (e : Int) p = some (powMod b e p) := by
  unfold pyPow
  rw [if_pos (by exact_mod_cast Nat.zero_le e)]
  simp

/-! ## Group-theoretic groundwork for discrete-log recovery -/

theorem coprime_pow_mod {g p : Nat} (hg : Nat.Coprime g p) (e : Nat) :
    Nat.Coprime (g ^ e % p) p := by
  have h1 : Nat.Coprime (g ^ e) p := hg.pow_left e
  unfold Nat.Coprime at h1 ⊢
  rw [← Nat.gcd_rec p (g ^ e), Nat.gcd_comm]
  exact h1

theorem pow_mod_reduce {g q p : Nat} (hp : 1 < p) (hord : g ^ q % p = 1) (a : Nat) :
    g ^ a % p = g ^ (a % q) % p := by
  by_cases hq : q = 0
  · subst hq; rw [Nat.mod_zero]
  · have hq1 : g ^ q ≡ 1 [MOD p] := by
      show g ^ q % p = 1 % p
      rw [hord, Nat.mod_eq_of_lt hp]
    have h1 : (g ^ q) ^ (a / q) ≡ 1 [MOD p] := by
      calc (g ^ q) ^ (a / q) ≡ 1 ^ (a / q) [MOD p] := hq1.pow _
        _ = 1 := one_pow _
    show g ^ a ≡ g ^ (a % q) [MOD p]
    conv_lhs => rw [← Nat.div_add_mod a q]
    rw [pow_add, pow_mul]
    calc (g ^ q) ^ (a / q) * g ^ (a % q) ≡ 1 * g ^ (a % q) [MOD p] := h1.mul_right _
      _ = g ^ (a % q) := one_mul _

theorem pow_mod_congr {g q p : Nat} (hp : 1 < p) (hord : g ^ q % p = 1) {a b : Nat}
    (hab : a % q = b % q) : g ^ a % p = g ^ b % p := by
  rw [pow_mod_reduce hp hord a, pow_mod_reduce hp hord b, hab]

/-- Distinct exponents below a prime subgroup order `q` give distinct
powers modulo `p`, provided `g` has order exactly `q` (certified by
`g^q ≡ 1` and `g ≢ 1`). -/
theorem pow_mod_inj {g q p : Nat} (hp : 1 < p) (hg : Nat.Coprime g p)
    (hq : Nat.Prime q) (hord : g ^ q % p = 1) (hg1 : g % p ≠ 1) :
    ∀ a b, a < q → b < q → g ^ a % p = g ^ b % p → a = b := by
  have hp0 : 0 < p := by omega
  set u : (ZMod p)ˣ := ZMod.unitOfCoprime g hg with hu
  have huval : (u : ZMod p) = (g : ZMod p) := ZMod.coe_unitOfCoprime g hg
  have hone : ((1 : Nat) : ZMod p) = 1 := Nat.cast_one
  have hordu : u ^ q = 1 := by
    apply Units.ext
    rw [Units.val_pow_eq_pow_val, huval, Units.val_one]
    have hmc : ((g ^ q : Nat) : ZMod p) = ((1 : Nat) : ZMod p) := by
      rw [ZMod.natCast_eq_natCast_iff']
      rw [hord, Nat.mod_eq_of_lt hp]
    push_cast at hmc
    exact hmc
  have horder : orderOf u = q := by
    have hdvd := orderOf_dvd_of_pow_eq_one hordu
    rcases (Nat.Prime.eq_one_or_self_of_dvd hq _ hdvd) with h1 | h1
    · exfalso
      have hu1 : u = 1 := orderOf_eq_one_iff.mp h1
      have : ((g : Nat) : ZMod p) = ((1 : Nat) : ZMod p) := by
        rw [← huval, hu1, Units.val_one, hone]
      rw [ZMod.natCast_eq_natCast_iff'] at this
      rw [Nat.mod_eq_of_lt hp] at this
      exact hg1 this
    · exact h1
  intro a b ha hb heq
  have hz : ((g ^ a : Nat) : ZMod p) = ((g ^ b : Nat) : ZMod p) := by
    rw [ZMod.natCast_eq_natCast_iff']
    exact heq
  push_cast at hz
  have hupow : u ^ a = u ^ b := by
    apply Units.ext
    rw [Units.val_pow_eq_pow_val, Units.val_pow_eq_pow_val, huval]
    exact hz
  have hmodeq := pow_eq_pow_iff_modEq.mp hupow
  rw [horder] at hmodeq
  have : a % q = b % q := hmodeq
  rw [Nat.mod_eq_of_lt ha, Nat.mod_eq_of_lt hb] at this
  exact this

/-! ## Correctness of `_discrete_log` (baby-step giant-step) -/

theorem babyStepsAcc_mem {g p : Nat} :
    ∀ f j acc (x : Nat × Nat), x ∈ babyStepsAcc g p f j (g ^ j % p) acc ↔
      (∃ t, j ≤ t ∧ t < j + f ∧ x = (g ^ t % p, t)) ∨ x ∈ acc := by
  intro f
  induction f with
  | zero =>
    intro j acc x
    unfold babyStepsAcc
    constructor
    · exact Or.inr
    · rintro (⟨t, h1, h2, _⟩ | hx)
      · omega
      · exact hx
  | succ f ih =>
    intro j acc x
    rw [babyStepsAcc]
    have hstep : g ^ j % p * g % p = g ^ (j + 1) % p := by
      rw [Nat.mod_mul_mod, ← pow_succ]
    rw [hstep, ih (j + 1) ((g ^ j % p, j) :: acc) x]
    simp only [List.mem_cons]
    constructor
    · rintro (⟨t, h1, h2, rfl⟩ | hx | hx)
      · exact Or.inl ⟨t, by omega, by omega, rfl⟩
      · exact Or.inl ⟨j, le_refl j, by omega, hx⟩
      · exact Or.inr hx
    · rintro (⟨t, h1, h2, rfl⟩ | hx)
      · by_cases ht : t = j
        · subst ht; exact Or.inr (Or.inl rfl)
        · exact Or.inl ⟨t, by omega, by omega, rfl⟩
      · exact Or.inr (Or.inr hx)

theorem babySteps_spec {g p : Nat} (hp : 1 < p) (m : Nat) (x : Nat × Nat) :
    x ∈ babySteps g p m ↔ ∃ t, t < m ∧ x = (g ^ t % p, t) := by
  unfold babySteps
  have h1 : (1 : Nat) = g ^ 0 % p := by rw [pow_zero, Nat.mod_eq_of_lt hp]
  rw [h1, babyStepsAcc_mem m 0 [] x]
  simp only [List.not_mem_nil, or_false]
  constructor
  · rintro ⟨t, _, h2, rfl⟩; exact ⟨t, by omega, rfl⟩
  · rintro ⟨t, h2, rfl⟩; exact ⟨t, Nat.zero_le t, by omega, rfl⟩

theorem giantLoop_finds {g p ginv m : Nat} (hp : 1 < p) (hg : Nat.Coprime g p)
    (hinj : ∀ a b, a < dlogBound → b < dlogBound → g ^ a % p = g ^ b % p → a = b)
    (hginv : g * ginv % p = 1 % p) (hm : m < dlogBound) :
    ∀ fuel i gamma, gamma < p → gamma * g ^ (bsgsM * i) ≡ g ^ m [MOD p] →
      i ≤ m / bsgsM → m / bsgsM < i + fuel →
      giantLoop (babySteps g p bsgsM) (powMod ginv bsgsM p) p bsgsM fuel i gamma = some m := by
  have hmdiv : m / bsgsM < bsgsM := by
    apply Nat.div_lt_of_lt_mul
    show m < 3163 * 3163
    have hd : dlogBound = 10004569 := rfl
    omega
  intro fuel
  induction fuel with
  | zero => intro i gamma _ _ h3 h4; omega
  | succ fuel ih =>
    intro i gamma hlt hinv h3 h4
    rw [giantLoop]
    cases hfind : (babySteps g p bsgsM).find? fun e => e.1 == gamma with
    | some e =>
      have hmem := List.mem_of_find?_eq_some hfind
      have hpred := List.find?_some hfind
      obtain ⟨t, ht, rfl⟩ := (babySteps_spec hp bsgsM e).mp hmem
      have hgam : g ^ t % p = gamma := by
        simpa using hpred
      -- the found exponent combines with the giant step count to give m
      have hexp : g ^ (t + bsgsM * i) % p = g ^ m % p := by
        have h5 : g ^ t % p * g ^ (bsgsM * i) % p = g ^ m % p := by
          rw [hgam]
          exact hinv
        rw [Nat.mod_mul_mod, ← pow_add] at h5
        exact h5
      have hi : i < bsgsM := lt_of_le_of_lt h3 hmdiv
      have hbound : t + bsgsM * i < dlogBound := by
        have h7 : bsgsM * i ≤ bsgsM * (bsgsM - 1) := Nat.mul_le_mul_left _ (by omega)
        have hb : bsgsM = 3163 := rfl
        have hd : dlogBound = 10004569 := rfl
        rw [hb] at h7 ⊢
        rw [hd]
        omega
      have h8 := hinj (t + bsgsM * i) m hbound hm hexp
      simp only [Option.some_inj]
      have hb : bsgsM = 3163 := rfl
      rw [hb] at h8 ⊢
      omega
    | none =>
      have hne : i ≠ m / bsgsM := by
        intro hcontra
        -- at the correct giant index the table lookup must succeed
        have ht0 : m % bsgsM < bsgsM := Nat.mod_lt m (by decide)
        have hsplit : m = m % bsgsM + bsgsM * i := by
          conv_lhs => rw [← Nat.div_add_mod m bsgsM]
          rw [hcontra]
          omega
        have hcop : Nat.gcd p (g ^ (bsgsM * i)) = 1 := (hg.pow_left _).symm
        have hgamma : gamma ≡ g ^ (m % bsgsM) [MOD p] := by
          apply Nat.ModEq.cancel_right_of_coprime hcop
          calc gamma * g ^ (bsgsM * i) ≡ g ^ m [MOD p] := hinv
            _ = g ^ (m % bsgsM) * g ^ (bsgsM * i) := by rw [← pow_add, ← hsplit]
        have hgamma2 : gamma = g ^ (m % bsgsM) % p := by
          have h6 : gamma % p = g ^ (m % bsgsM) % p := hgamma
          rw [Nat.mod_eq_of_lt hlt] at h6
          exact h6
        have hmem2 : ((g ^ (m % bsgsM) % p, m % bsgsM) : Nat × Nat) ∈ babySteps g p bsgsM :=
          (babySteps_spec hp bsgsM _).mpr ⟨m % bsgsM, ht0, rfl⟩
        have hsome : ((babySteps g p bsgsM).find? fun e => e.1 == gamma).isSome := by
          rw [List.find?_isSome]
          refine ⟨(g ^ (m % bsgsM) % p, m % bsgsM), hmem2, ?_⟩
          simp [hgamma2]
        rw [hfind] at hsome
        simp at hsome
      have hrec : gamma * powMod ginv bsgsM p % p * g ^ (bsgsM * (i + 1)) ≡ g ^ m [MOD p] := by
        have hgi : g * ginv ≡ 1 [MOD p] := by
          show g * ginv % p = 1 % p
          exact hginv
        have hgipow : g ^ bsgsM * ginv ^ bsgsM ≡ 1 [MOD p] := by
          calc g ^ bsgsM * ginv ^ bsgsM = (g * ginv) ^ bsgsM := (mul_pow g ginv bsgsM).symm
            _ ≡ 1 ^ bsgsM [MOD p] := hgi.pow _
            _ = 1 := one_pow _
        calc gamma * powMod ginv bsgsM p % p * g ^ (bsgsM * (i + 1))
            ≡ gamma * powMod ginv bsgsM p * g ^ (bsgsM * (i + 1)) [MOD p] :=
              (Nat.mod_modEq _ p).mul_right _
          _ = gamma * (ginv ^ bsgsM % p) * g ^ (bsgsM * (i + 1)) := by rw [powMod_eq]
          _ ≡ gamma * ginv ^ bsgsM * g ^ (bsgsM * (i + 1)) [MOD p] :=
              (((Nat.mod_modEq _ p).mul_left gamma).mul_right _)
          _ = gamma * g ^ (bsgsM * i) * (g ^ bsgsM * ginv ^ bsgsM) := by ring
          _ ≡ g ^ m * 1 [MOD p] := Nat.ModEq.mul hinv hgipow
          _ = g ^ m := mul_one _
      exact ih (i + 1) (gamma * powMod ginv bsgsM p % p)
        (Nat.mod_lt _ (by omega)) hrec (by omega) (by omega)

/-- `_discrete_log` recovers any exponent below `bsgsM ^ 2` when powers
of `g` are injective on that range. -/
theorem discreteLog_pow (pk : PublicKey) (m : Nat) (hp : 1 < pk.p)
    (hg : Nat.Coprime pk.g pk.p)
    (hinj : ∀ a b, a < dlogBound → b < dlogBound →
      pk.g ^ a % pk.p = pk.g ^ b % pk.p → a = b)
    (hm : m < dlogBound) :
    discreteLog (pk.g ^ m % pk.p) pk = some m := by
  unfold discreteLog
  have hg1 : Nat.gcd pk.g pk.p = 1 := hg
  obtain ⟨ginv, hginv⟩ := Option.isSome_iff_exists.mp (modInv_isSome hg1)
  rw [hginv]
  apply giantLoop_finds hp hg hinj (modInv_mul (by omega) hginv) hm
  · exact Nat.mod_lt _ (by omega)
  · show pk.g ^ m % pk.p * pk.g ^ (bsgsM * 0) % pk.p = pk.g ^ m % pk.p
    rw [Nat.mul_zero, pow_zero, Nat.mul_one, Nat.mod_mod]
  · exact Nat.zero_le _
  · have h2 : m / bsgsM < bsgsM := by
      apply Nat.div_lt_of_lt_mul
      show m < 3163 * 3163
      have hd : dlogBound = 10004569 := rfl
      omega
    have hb : bsgsM = 3163 := rfl
    omega

theorem dlog_inj_of_params {g q p : Nat} (hp : 1 < p) (hgcd : Nat.gcd g p = 1)
    (hq : Nat.Prime q) (hord : powMod g q p = 1) (hg1 : g % p ≠ 1)
    (hqN : dlogBound ≤ q) :
    ∀ a b, a < dlogBound → b < dlogBound → g ^ a % p = g ^ b % p → a = b := by
  intro a b ha hb heq
  have hord2 : g ^ q % p = 1 := by rw [← powMod_eq]; exact hord
  exact pow_mod_inj hp hgcd hq hord2 hg1 a b (lt_of_lt_of_le ha hqN)
    (lt_of_lt_of_le hb hqN) heq

/-- Decryption of a ciphertext of the shape `(g^R, g^{xR+M})` returns `M`
(`h` plays no role in `decrypt`). -/
theorem decrypt_core (pk : PublicKey) (x R M : Nat) (hp : 1 < pk.p)
    (hgcd : Nat.gcd pk.g pk.p = 1)
    (hinj : ∀ a b, a < dlogBound → b < dlogBound →
      pk.g ^ a % pk.p = pk.g ^ b % pk.p → a = b)
    (hm : M < dlogBound) :
    decrypt { c1 := pk.g ^ R % pk.p, c2 := pk.g ^ (x * R + M) % pk.p } { x := x } pk
      = some M := by
  have hg : Nat.Coprime pk.g pk.p := hgcd
  unfold decrypt
  simp only
  have hc1x : powMod (pk.g ^ R % pk.p) x pk.p = pk.g ^ (R * x) % pk.p := by
    rw [powMod_eq, ← Nat.pow_mod, ← pow_mul]
  rw [hc1x]
  have hcop : Nat.gcd (pk.g ^ (R * x) % pk.p) pk.p = 1 := coprime_pow_mod hg (R * x)
  obtain ⟨v, hv⟩ := Option.isSome_iff_exists.mp (modInv_isSome hcop)
  rw [hv]
  have harg : pk.g ^ (x * R + M) % pk.p * v % pk.p = pk.g ^ M % pk.p := by
    have h1 : pk.g ^ (R * x) % pk.p * v ≡ 1 [MOD pk.p] := by
      show pk.g ^ (R * x) % pk.p * v % pk.p = 1 % pk.p
      exact modInv_mul (by omega) hv
    have h2 : pk.g ^ (x * R + M) % pk.p * v ≡ pk.g ^ M [MOD pk.p] := by
      calc pk.g ^ (x * R + M) % pk.p * v
          ≡ pk.g ^ (x * R + M) * v [MOD pk.p] := (Nat.mod_modEq _ _).mul_right v
        _ = pk.g ^ M * (pk.g ^ (R * x) * v) := by ring
        _ ≡ pk.g ^ M * (pk.g ^ (R * x) % pk.p * v) [MOD pk.p] :=
            (((Nat.mod_modEq _ _).symm.mul_right v).mul_left _)
        _ ≡ pk.g ^ M * 1 [MOD pk.p] := h1.mul_left _
        _ = pk.g ^ M := mul_one _
    have h3 : pk.g ^ (x * R + M) % pk.p * v % pk.p = pk.g ^ M % pk.p := h2
    exact h3
  show discreteLog (pk.g ^ (x * R + M) % pk.p * v % pk.p) pk = some M
  rw [harg]
  exact discreteLog_pow pk M hp hg hinj hm

/-- C2.  For every message `m` below the discrete-log recovery bound and
every randomness `r ∈ [2, q−1]`, `decrypt(encrypt(pk, m, r), sk)` returns
exactly `m`, for a keypair `h = g^x mod p` over a prime-order-`q`
subgroup (`g^q ≡ 1`, `g ≢ 1`, `gcd(g, p) = 1`, `q` prime, `q` at least
the recovery bound). -/
theorem C2_decrypt_encrypt (p q g x m r : Nat) (hp : 1 < p)
    (hgcd : Nat.gcd g p = 1) (hq : Nat.Prime q) (hord : powMod g q p = 1)
    (hg1 : g % p ≠ 1) (hqN : dlogBound ≤ q) (hm : m < dlogBound)
    (hr2 : 2 ≤ r) (hrq : r ≤ q - 1) :
    decrypt (encrypt { p := p, q := q, g := g, h := powMod g x p } m r)
      { x := x } { p := p, q := q, g := g, h := powMod g x p } = some m := by
  have henc : encrypt { p := p, q := q, g := g, h := powMod g x p } m r
      = { c1 := g ^ r % p, c2 := g ^ (x * r + m) % p } := by
    unfold encrypt
    simp only
    congr 1
    · rw [powMod_eq]
    · rw [powMod_eq, powMod_eq, powMod_eq, ← Nat.pow_mod, ← pow_mul, ← Nat.mul_mod,
        ← pow_add]
  rw [henc]
  exact decrypt_core { p := p, q := q, g := g, h := powMod g x p } x r m hp hgcd
    (dlog_inj_of_params hp hgcd hq hord hg1 hqN) hm

/-- Witness for C2 at the safe prime `p = 20010239 = 2·10005119 + 1`,
`g = 4`, `x = 5`, `m = 7`, `r = 2`. -/
theorem C2_decrypt_encrypt_witness :
    (1 < 20010239 ∧ Nat.gcd 4 20010239 = 1 ∧ Nat.Prime 10005119 ∧
      powMod 4 10005119 20010239 = 1 ∧ 4 % 20010239 ≠ 1 ∧
      dlogBound ≤ 10005119 ∧ 7 < dlogBound ∧ 2 ≤ 2 ∧ 2 ≤ 10005119 - 1) ∧
    decrypt (encrypt { p := 20010239, q := 10005119, g := 4, h := powMod 4 5 20010239 } 7 2)
      { x := 5 } { p := 20010239, q := 10005119, g := 4, h := powMod 4 5 20010239 }
      = some 7 :=
  ⟨⟨by decide, by decide, by norm_num, by decide, by decide, by decide, by decide,
    by decide, by decide⟩,
   C2_decrypt_encrypt 20010239 10005119 4 5 7 2 (by decide) (by decide) (by norm_num)
     (by decide) (by decide) (by decide) (by decide) (by decide) (by decide)⟩

theorem encrypt_eq (p q g x m r : Nat) :
    encrypt { p := p, q := q, g := g, h := powMod g x p } m r
      = { c1 := g ^ r % p, c2 := g ^ (x * r + m) % p } := by
  unfold encrypt
  simp only
  congr 1
  · rw [powMod_eq]
  · rw [powMod_eq, powMod_eq, powMod_eq, ← Nat.pow_mod, ← pow_mul, ← Nat.mul_mod,
      ← pow_add]

/-- C4.  Homomorphic addition: decrypting the component-wise product
(mod `p`) of two encryptions returns the sum of the plaintexts, as long
as the sum stays below the discrete-log recovery bound. -/
theorem C4_homomorphic_add_decrypt (p q g x m1 m2 r1 r2 : Nat) (hp : 1 < p)
    (hgcd : Nat.gcd g p = 1) (hq : Nat.Prime q) (hord : powMod g q p = 1)
    (hg1 : g % p ≠ 1) (hqN : dlogBound ≤ q) (hm : m1 + m2 < dlogBound) :
    decrypt
      (homomorphicAdd p (encrypt { p := p, q := q, g := g, h := powMod g x p } m1 r1)
        (encrypt { p := p, q := q, g := g, h := powMod g x p } m2 r2))
      { x := x } { p := p, q := q, g := g, h := powMod g x p } = some (m1 + m2) := by
  rw [encrypt_eq, encrypt_eq]
  unfold homomorphicAdd
  simp only
  have hc1 : g ^ r1 % p * (g ^ r2 % p) % p = g ^ (r1 + r2) % p := by
    rw [← Nat.mul_mod, ← pow_add]
  have hc2 : g ^ (x * r1 + m1) % p * (g ^ (x * r2 + m2) % p) % p
      = g ^ (x * (r1 + r2) + (m1 + m2)) % p := by
    rw [← Nat.mul_mod, ← pow_add]
    congr 1
    ring
  rw [hc1, hc2]
  exact decrypt_core { p := p, q := q, g := g, h := powMod g x p } x (r1 + r2) (m1 + m2)
    hp hgcd (dlog_inj_of_params hp hgcd hq hord hg1 hqN) hm

/-- Witness for C4 with `m1 = 3`, `m2 = 4`, over the same group as the C2
witness. -/
theorem C4_homomorphic_add_decrypt_witness :
    (1 < 20010239 ∧ Nat.gcd 4 20010239 = 1 ∧ Nat.Prime 10005119 ∧
      powMod 4 10005119 20010239 = 1 ∧ 4 % 20010239 ≠ 1 ∧
      dlogBound ≤ 10005119 ∧ 3 + 4 < dlogBound) ∧
    decrypt
      (homomorphicAdd 20010239
        (encrypt { p := 20010239, q := 10005119, g := 4, h := powMod 4 5 20010239 } 3 2)
        (encrypt { p := 20010239, q := 10005119, g := 4, h := powMod 4 5 20010239 } 4 3))
      { x := 5 } { p := 20010239, q := 10005119, g := 4, h := powMod 4 5 20010239 }
      = some (3 + 4) :=
  ⟨⟨by decide, by decide, by norm_num, by decide, by decide, by decide, by decide⟩,
   C4_homomorphic_add_decrypt 20010239 10005119 4 5 3 4 2 3 (by decide) (by decide)
     (by norm_num) (by decide) (by decide) (by decide) (by decide)⟩

/-! ## Shamir-share correctness groundwork -/

theorem evalShare_foldl_cast (q i : Nat) :
    ∀ (cs : List Nat) (k acc : Nat),
      (((List.enumFrom k cs).foldl (fun acc cj => (acc + cj.2 * powMod i cj.1 q) % q) acc : Nat) : ZMod q)
        = (acc : ZMod q)
          + ∑ j ∈ Finset.range cs.length, (cs.getD j 0 : ZMod q) * (i : ZMod q) ^ (k + j) := by
  intro cs
  induction cs with
  | nil =>
    intro k acc
    simp [List.enumFrom]
  | cons c cs ih =>
    intro k acc
    rw [List.enumFrom, List.foldl_cons, ih (k + 1) ((acc + c * powMod i k q) % q)]
    have hcast : (((acc + c * powMod i k q) % q : Nat) : ZMod q)
        = (acc : ZMod q) + (c : ZMod q) * (i : ZMod q) ^ k := by
      calc (((acc + c * powMod i k q) % q : Nat) : ZMod q)
          = ((acc + c * (i ^ k % q) : Nat) : ZMod q) := by rw [powMod_eq, ZMod.natCast_mod]
        _ = (acc : ZMod q) + (c : ZMod q) * ((i ^ k % q : Nat) : ZMod q) := by push_cast; ring
        _ = (acc : ZMod q) + (c : ZMod q) * (i : ZMod q) ^ k := by
            rw [ZMod.natCast_mod]; push_cast; ring
    rw [hcast]
    rw [List.length_cons, Finset.sum_range_succ']
    simp only [List.getD_cons_succ, List.getD_cons_zero]
    have hexp : ∀ j : Nat, k + 1 + j = k + (j + 1) := by omega
    simp only [hexp]
    ring

theorem evalShare_cast (q : Nat) (cs : List Nat) (i : Nat) :
    ((evalShare q cs i : Nat) : ZMod q)
      = ∑ j ∈ Finset.range cs.length, (cs.getD j 0 : ZMod q) * (i : ZMod q) ^ j := by
  unfold evalShare
  have henum : cs.enum = List.enumFrom 0 cs := rfl
  rw [henum, evalShare_foldl_cast q i cs 0 0]
  simp

theorem lagrange_fold_spec (q : Nat) (hq : 0 < q) (i : Nat) :
    ∀ (S : List Nat) (nd : Int × Int), 0 ≤ nd.1 → 0 ≤ nd.2 →
      let r := S.foldl
        (fun (acc : Int × Int) j =>
          if i ≠ j then
            (acc.1 * (-(j : Int)) % (q : Int), acc.2 * ((i : Int) - (j : Int)) % (q : Int))
          else acc) nd
      0 ≤ r.1 ∧ 0 ≤ r.2 ∧
        ((r.1 : ZMod q) = (nd.1 : ZMod q)
          * ((S.filter fun j => i ≠ j).map fun j : Nat => -(j : ZMod q)).prod) ∧
        ((r.2 : ZMod q) = (nd.2 : ZMod q)
          * ((S.filter fun j => i ≠ j).map fun j : Nat => (i : ZMod q) - (j : ZMod q)).prod) := by
  intro S
  induction S with
  | nil =>
    intro nd h1 h2
    refine ⟨h1, h2, ?_, ?_⟩ <;> simp
  | cons a S ih =>
    intro nd h1 h2
    by_cases ha : i ≠ a
    · have hdec : (decide (i ≠ a)) = true := decide_eq_true ha
      have hstep1 : (0 : Int) ≤ nd.1 * (-(a : Int)) % (q : Int) :=
        Int.emod_nonneg _ (by exact_mod_cast hq.ne')
      have hstep2 : (0 : Int) ≤ nd.2 * ((i : Int) - (a : Int)) % (q : Int) :=
        Int.emod_nonneg _ (by exact_mod_cast hq.ne')
      have hrec := ih (nd.1 * (-(a : Int)) % (q : Int),
        nd.2 * ((i : Int) - (a : Int)) % (q : Int)) hstep1 hstep2
      simp only [List.foldl_cons, if_pos ha]
      refine ⟨hrec.1, hrec.2.1, ?_, ?_⟩
      · rw [hrec.2.2.1]
        simp [List.filter_cons, hdec, ha]
        ring
      · rw [hrec.2.2.2]
        simp [List.filter_cons, hdec, ha]
        ring
    · have hdec : (decide (i ≠ a)) = false := decide_eq_false ha
      have hrec := ih nd h1 h2
      simp only [List.foldl_cons, if_neg ha]
      refine ⟨hrec.1, hrec.2.1, ?_, ?_⟩
      · rw [hrec.2.2.1]
        simp only [List.filter_cons, hdec]
        simp
      · rw [hrec.2.2.2]
        simp only [List.filter_cons, hdec]
        simp

theorem lagrangeCoefficient_spec (q : Nat) (hq : Nat.Prime q) (i : Nat) (S : List Nat)
    (hden : ((S.filter fun j => i ≠ j).map fun j : Nat => (i : ZMod q) - (j : ZMod q)).prod ≠ 0) :
    ∃ lam, lagrangeCoefficient i S q = some lam ∧ lam < q ∧
      (lam : ZMod q)
        = ((S.filter fun j => i ≠ j).map fun j : Nat => -(j : ZMod q)).prod
          * (((S.filter fun j => i ≠ j).map fun j : Nat => (i : ZMod q) - (j : ZMod q)).prod)⁻¹ := by
  haveI : Fact (Nat.Prime q) := ⟨hq⟩
  have hq0 : 0 < q := hq.pos
  have hfold := lagrange_fold_spec q hq0 i S (1, 1) (by norm_num) (by norm_num)
  obtain ⟨hn1, hn2, hc1, hc2⟩ := hfold
  unfold lagrangeCoefficient
  simp only at hc1 hc2 ⊢
  rw [Int.cast_one, one_mul] at hc1 hc2
  set nd := S.foldl
    (fun (acc : Int × Int) j =>
      if i ≠ j then
        (acc.1 * (-(j : Int)) % (q : Int), acc.2 * ((i : Int) - (j : Int)) % (q : Int))
      else acc)
    ((1 : Int), (1 : Int)) with hnddef
  have hDcast : ((nd.2.toNat : Nat) : ZMod q)
      = ((S.filter fun j => i ≠ j).map fun j : Nat => (i : ZMod q) - (j : ZMod q)).prod := by
    rw [← hc2]
    have h1 : ((nd.2.toNat : Nat) : Int) = nd.2 := Int.toNat_of_nonneg hn2
    calc ((nd.2.toNat : Nat) : ZMod q) = (((nd.2.toNat : Nat) : Int) : ZMod q) := by push_cast; rfl
      _ = ((nd.2 : Int) : ZMod q) := by rw [h1]
  have hnotdvd : ¬ q ∣ nd.2.toNat := by
    intro hdvd
    have : ((nd.2.toNat : Nat) : ZMod q) = 0 := (ZMod.natCast_zmod_eq_zero_iff_dvd _ _).mpr hdvd
    rw [hDcast] at this
    exact hden this
  have hgcd : Nat.gcd nd.2.toNat q = 1 :=
    Nat.Coprime.symm ((Nat.Prime.coprime_iff_not_dvd hq).mpr hnotdvd)
  obtain ⟨dinv, hdinv⟩ := Option.isSome_iff_exists.mp (modInv_isSome hgcd)
  rw [hdinv]
  refine ⟨nd.1.toNat * dinv % q, rfl, Nat.mod_lt _ hq0, ?_⟩
  have hNcast : ((nd.1.toNat : Nat) : ZMod q)
      = ((S.filter fun j => i ≠ j).map fun j : Nat => -(j : ZMod q)).prod := by
    rw [← hc1]
    have h1 : ((nd.1.toNat : Nat) : Int) = nd.1 := Int.toNat_of_nonneg hn1
    calc ((nd.1.toNat : Nat) : ZMod q) = (((nd.1.toNat : Nat) : Int) : ZMod q) := by push_cast; rfl
      _ = ((nd.1 : Int) : ZMod q) := by rw [h1]
  have hdinvcast : (dinv : ZMod q)
      = (((S.filter fun j => i ≠ j).map fun j : Nat => (i : ZMod q) - (j : ZMod q)).prod)⁻¹ := by
    have hmul := modInv_mul hq0 hdinv
    have hcastmul : ((nd.2.toNat * dinv : Nat) : ZMod q) = ((1 % q : Nat) : ZMod q) := by
      rw [← ZMod.natCast_mod, hmul]
    rw [ZMod.natCast_mod, Nat.cast_one] at hcastmul
    push_cast at hcastmul
    rw [hDcast] at hcastmul
    exact eq_inv_of_mul_eq_one_right hcastmul
  rw [ZMod.natCast_mod]
  push_cast
  rw [hNcast, hdinvcast]

theorem natCast_injOn_lt (q : Nat) {a b : Nat} (ha : a < q) (hb : b < q)
    (h : (a : ZMod q) = (b : ZMod q)) : a = b := by
  have hq0 : 0 < q := by omega
  haveI : NeZero q := ⟨by omega⟩
  have := congrArg ZMod.val h
  rwa [ZMod.val_cast_of_lt ha, ZMod.val_cast_of_lt hb] at this

theorem denProd_ne_zero (q : Nat) (hq : Nat.Prime q) (i : Nat) (S : List Nat)
    (hi : i < q) (hrange : ∀ j ∈ S, j < q) :
    ((S.filter fun j => i ≠ j).map fun j : Nat => (i : ZMod q) - (j : ZMod q)).prod ≠ 0 := by
  haveI : Fact (Nat.Prime q) := ⟨hq⟩
  apply List.prod_ne_zero
  intro hmem
  obtain ⟨j, hj, hj0⟩ := List.mem_map.mp hmem
  have hjS := List.mem_filter.mp hj
  have hij : i ≠ j := by simpa using hjS.2
  have hjq : j < q := hrange j hjS.1
  have heq : (i : ZMod q) = (j : ZMod q) := sub_eq_zero.mp hj0
  exact hij (natCast_injOn_lt q hi hjq heq)

theorem list_prod_inv {α : Type} [DivisionCommMonoid α] :
    ∀ l : List α, l.prod⁻¹ = (l.map fun x => x⁻¹).prod
  | [] => by simp
  | x :: xs => by simp [mul_inv, list_prod_inv xs, mul_comm]

/-- Lagrange interpolation at 0: the share values of a polynomial with
coefficient list `cs`, weighted by the Lagrange coefficients of a list of
at least `cs.length` distinct nodes, sum to the constant term. -/
theorem lagrange_identity (q : Nat) (hq : Nat.Prime q) (cs : List Nat) (hcs : cs ≠ [])
    (S : List Nat) (hnodup : S.Nodup) (hlen : cs.length ≤ S.length)
    (hrange : ∀ j ∈ S, 0 < j ∧ j < q) :
    (S.map fun i : Nat => (evalShare q cs i : ZMod q) * lamCast q i S).sum
      = (cs.getD 0 0 : ZMod q) := by
  haveI : Fact (Nat.Prime q) := ⟨hq⟩
  classical
  set v : ℕ → ZMod q := fun n => (n : ZMod q) with hv
  set s : Finset ℕ := S.toFinset with hs
  have hmem_lt : ∀ j ∈ s, j < q := by
    intro j hj
    exact (hrange j (List.mem_toFinset.mp hj)).2
  have hinj : Set.InjOn v s := by
    intro a ha b hb hab
    exact natCast_injOn_lt q (hmem_lt a ha) (hmem_lt b hb) hab
  set F : Polynomial (ZMod q) :=
    ∑ j ∈ Finset.range cs.length, Polynomial.C (cs.getD j 0 : ZMod q) * Polynomial.X ^ j
    with hF
  have hcard : s.card = S.length := List.toFinset_card_of_nodup hnodup
  have hdeg : F.degree < s.card := by
    have h1 : F.degree < (cs.length : WithBot ℕ) := by
      apply lt_of_le_of_lt (Polynomial.degree_sum_le _ _)
      rw [Finset.sup_lt_iff (by exact_mod_cast WithBot.bot_lt_coe cs.length)]
      intro j hj
      apply lt_of_le_of_lt (Polynomial.degree_C_mul_X_pow_le _ _)
      exact_mod_cast Finset.mem_range.mp hj
    apply lt_of_lt_of_le h1
    rw [hcard]
    exact_mod_cast hlen
  have hinterp := Lagrange.eq_interpolate hinj hdeg
  have heval := congrArg (Polynomial.eval (0 : ZMod q)) hinterp
  rw [Lagrange.interpolate_apply, Polynomial.eval_finset_sum] at heval
  -- the basis polynomials evaluate at 0 to the Lagrange coefficients
  have hbasis : ∀ i ∈ s, (Lagrange.basis s v i).eval 0 = lamCast q i S := by
    intro i hi
    rw [Lagrange.basis, Polynomial.eval_prod]
    have hset : s.erase i = (S.filter fun j => i ≠ j).toFinset := by
      ext a
      simp only [Finset.mem_erase, hs, List.mem_toFinset, List.mem_filter]
      constructor
      · rintro ⟨h1, h2⟩
        exact ⟨h2, by simpa using (Ne.symm h1)⟩
      · rintro ⟨h1, h2⟩
        refine ⟨?_, h1⟩
        intro hai
        subst hai
        simp at h2
    rw [hset]
    have hfilnodup : (S.filter fun j => i ≠ j).Nodup := hnodup.filter _
    rw [List.prod_toFinset _ hfilnodup]
    have hfun : ∀ j, Polynomial.eval 0 (Lagrange.basisDivisor (v i) (v j))
        = -(v j) * ((v i) - (v j))⁻¹ := by
      intro j
      rw [Lagrange.basisDivisor]
      simp
      ring
    calc ((S.filter fun j => i ≠ j).map
            fun j => Polynomial.eval 0 (Lagrange.basisDivisor (v i) (v j))).prod
        = ((S.filter fun j => i ≠ j).map
            fun j : Nat => -(v j) * ((v i) - (v j))⁻¹).prod := by
          congr 1
          exact List.map_congr_left fun j _ => hfun j
      _ = ((S.filter fun j => i ≠ j).map fun j : Nat => -(v j)).prod
          * ((S.filter fun j => i ≠ j).map fun j : Nat => ((v i) - (v j))⁻¹).prod :=
          List.prod_map_mul
      _ = lamCast q i S := by
          rw [lamCast]
          congr 1
          have : ((S.filter fun j => i ≠ j).map fun j : Nat => ((v i) - (v j))⁻¹)
              = (((S.filter fun j => i ≠ j).map fun j : Nat => (v i) - (v j)).map
                  fun z => z⁻¹) := by
            rw [List.map_map]
            rfl
          rw [this, ← list_prod_inv]
  have heval2 : ∑ i ∈ s, Polynomial.eval (v i) F * lamCast q i S
      = Polynomial.eval 0 F := by
    have hexp : Polynomial.eval 0 (∑ i ∈ s,
        Polynomial.C (Polynomial.eval (v i) F) * Lagrange.basis s v i)
        = ∑ i ∈ s, Polynomial.eval (v i) F * lamCast q i S := by
      rw [Polynomial.eval_finset_sum]
      apply Finset.sum_congr rfl
      intro i hi
      rw [Polynomial.eval_mul, Polynomial.eval_C, hbasis i hi]
    rw [← hexp, ← heval]
    conv_rhs => rw [hF]
    rw [Polynomial.eval_finset_sum]
  have hevalF : ∀ i : Nat, Polynomial.eval (v i) F = ((evalShare q cs i : Nat) : ZMod q) := by
    intro i
    rw [evalShare_cast, hF, Polynomial.eval_finset_sum]
    apply Finset.sum_congr rfl
    intro j _
    simp
  have hF0 : Polynomial.eval 0 F = (cs.getD 0 0 : ZMod q) := by
    rw [hF, Polynomial.eval_finset_sum]
    have hlen0 : 0 < cs.length := List.length_pos.mpr hcs
    rw [Finset.sum_eq_single_of_mem 0 (Finset.mem_range.mpr hlen0)]
    · simp
    · intro j _ hj0
      simp [zero_pow hj0]
  rw [← List.sum_toFinset _ hnodup]
  rw [← hs]
  calc ∑ i ∈ s, ((evalShare q cs i : Nat) : ZMod q) * lamCast q i S
      = ∑ i ∈ s, Polynomial.eval (v i) F * lamCast q i S := by
        apply Finset.sum_congr rfl
        intro i _
        rw [hevalF i]
    _ = Polynomial.eval 0 F := heval2
    _ = (cs.getD 0 0 : ZMod q) := hF0

theorem combineFold_spec (q : Nat) (hq0 : 0 < q) (indices : List Nat) (lam : Nat → Nat) :
    ∀ (SL : List KeyShare) (acc : Nat), acc < q →
      (∀ sh ∈ SL, lagrangeCoefficient sh.index indices q = some (lam sh.index)) →
      ∃ r, SL.foldl (fun (a : Option Nat) s =>
          a.bind fun t => (lagrangeCoefficient s.index indices q).map fun li =>
            (t + s.share * li) % q) (some acc) = some r ∧ r < q ∧
        (r : ZMod q) = (acc : ZMod q)
          + (SL.map fun sh => (sh.share : ZMod q) * (lam sh.index : ZMod q)).sum := by
  intro SL
  induction SL with
  | nil =>
    intro acc hacc _
    exact ⟨acc, rfl, hacc, by simp⟩
  | cons sh SL ih =>
    intro acc hacc hlam
    have hsh := hlam sh (List.mem_cons_self sh SL)
    rw [List.foldl_cons]
    have hstep : (Option.some acc).bind (fun t =>
        (lagrangeCoefficient sh.index indices q).map fun li => (t + sh.share * li) % q)
        = some ((acc + sh.share * lam sh.index) % q) := by
      rw [hsh]
      rfl
    rw [hstep]
    obtain ⟨r, hr1, hr2, hr3⟩ := ih ((acc + sh.share * lam sh.index) % q)
      (Nat.mod_lt _ hq0) (fun s hs => hlam s (List.mem_cons_of_mem sh hs))
    refine ⟨r, hr1, hr2, ?_⟩
    rw [hr3, ZMod.natCast_mod]
    push_cast
    simp only [List.map_cons, List.sum_cons]
    ring

/-- C8 (amended).  `combine_key_shares` performs no share-count check and
no commitment check: it Lagrange-interpolates whatever shares it is
given.  On the shares of any `k`-subset of distinct indices of a
degree-`(k-1)` sharing of `x` it returns exactly `x`. -/
theorem C8_combine_key_shares (p g q x n : Nat) (rest S : List Nat)
    (hq : Nat.Prime q) (hx : x < q) (hn : n < q) (hnodup : S.Nodup)
    (hlen : S.length = (x :: rest).length)
    (hrange : ∀ i ∈ S, 1 ≤ i ∧ i ≤ n) :
    combineKeyShares q (S.map fun i =>
      { index := i, share := evalShare q (x :: rest) i,
        verificationPoint := powMod g (evalShare q (x :: rest) i) p }) = some { x := x } := by
  have hq0 : 0 < q := hq.pos
  set mk : Nat → KeyShare := fun i =>
    { index := i, share := evalShare q (x :: rest) i,
      verificationPoint := powMod g (evalShare q (x :: rest) i) p } with hmk
  have hS : (S.map mk).map KeyShare.index = S := by
    rw [List.map_map]
    have : KeyShare.index ∘ mk = id := by funext i; simp [hmk]
    rw [this, List.map_id]
  have hq10 : ∀ j ∈ S, 0 < j ∧ j < q := by
    intro j hj
    have := hrange j hj
    omega
  have hlamval : ∀ i ∈ S,
      lagrangeCoefficient i S q = some ((lagrangeCoefficient i S q).getD 0) ∧
      (((lagrangeCoefficient i S q).getD 0 : Nat) : ZMod q) = lamCast q i S := by
    intro i hi
    have hiq : i < q := (hq10 i hi).2
    have hden := denProd_ne_zero q hq i S hiq fun j hj => (hq10 j hj).2
    obtain ⟨lam0, h1, _, h3⟩ := lagrangeCoefficient_spec q hq i S hden
    rw [h1]
    refine ⟨rfl, ?_⟩
    simp only [Option.getD_some]
    rw [lamCast]
    exact h3
  simp only [combineKeyShares]
  rw [hS]
  obtain ⟨r, hfold, hrq, hcast⟩ := combineFold_spec q hq0 S
    (fun i => (lagrangeCoefficient i S q).getD 0) (S.map mk) 0 hq0
    (by
      intro sh hsh
      obtain ⟨i, hi, rfl⟩ := List.mem_map.mp hsh
      exact (hlamval i hi).1)
  rw [hfold]
  have hrx : r = x := by
    apply natCast_injOn_lt q hrq hx
    rw [hcast]
    rw [List.map_map]
    have hmapeq : ((fun sh : KeyShare => (sh.share : ZMod q)
          * (((lagrangeCoefficient sh.index S q).getD 0 : Nat) : ZMod q)) ∘ mk)
        = fun i : Nat => ((evalShare q (x :: rest) i : Nat) : ZMod q)
          * (((lagrangeCoefficient i S q).getD 0 : Nat) : ZMod q) := by
      funext i
      simp [hmk]
    rw [hmapeq]
    have hcongr : S.map (fun i : Nat => ((evalShare q (x :: rest) i : Nat) : ZMod q)
          * (((lagrangeCoefficient i S q).getD 0 : Nat) : ZMod q))
        = S.map (fun i : Nat => ((evalShare q (x :: rest) i : Nat) : ZMod q)
          * lamCast q i S) := by
      apply List.map_congr_left
      intro i hi
      rw [(hlamval i hi).2]
    rw [hcongr]
    rw [lagrange_identity q hq (x :: rest) (by simp) S hnodup (le_of_eq hlen.symm) hq10]
    simp
  rw [hrx]
  rfl

/-- Witness for C8: a (3,5) sharing of `x = 5` over `q = 11` with
coefficients `[5, 2, 3]`, recombined from the index subset `{1, 2, 4}`. -/
theorem C8_combine_key_shares_witness :
    (Nat.Prime 11 ∧ (5 : Nat) < 11 ∧ (5 : Nat) < 11 ∧
      ([1, 2, 4] : List Nat).Nodup ∧
      ([1, 2, 4] : List Nat).length = ([5, 2, 3] : List Nat).length ∧
      ∀ i ∈ ([1, 2, 4] : List Nat), 1 ≤ i ∧ i ≤ 5) ∧
    combineKeyShares 11 (([1, 2, 4] : List Nat).map fun i =>
      { index := i, share := evalShare 11 [5, 2, 3] i,
        verificationPoint := powMod 2 (evalShare 11 [5, 2, 3] i) 23 }) = some { x := 5 } :=
  ⟨⟨by norm_num, by decide, by decide, by decide, by decide, by decide⟩,
   C8_combine_key_shares 23 2 11 5 5 [2, 3] [1, 2, 4] (by norm_num) (by decide)
     (by decide) (by decide) (by decide) (by decide)⟩

/-- Counterexample for C8 as stated: a single share (fewer than any
threshold `k ≥ 2`) whose commitment check fails (`g^5 mod p = 32 ≠ 0`)
is still accepted, and `combine_key_shares` returns a private key instead
of an error. -/
theorem C8_combine_key_shares_counterexample :
    combineKeyShares defaultQ [{ index := 1, share := 5, verificationPoint := 0 }]
        = some { x := 5 } ∧
      verifyKeyShareProof defaultP defaultG
        { index := 1, share := 5, verificationPoint := 0 } = false := by
  constructor
  · decide
  · decide

theorem prod_pow_mod (p c1 : Nat) :
    ∀ L : List (Nat × Nat),
      (L.map fun e => (c1 ^ e.1 % p) ^ e.2).prod
        ≡ c1 ^ (L.map fun e => e.1 * e.2).sum [MOD p]
  | [] => by simp [Nat.ModEq.refl]
  | e :: L => by
    simp only [List.map_cons, List.prod_cons, List.sum_cons, pow_add]
    have h1 : (c1 ^ e.1 % p) ^ e.2 ≡ c1 ^ (e.1 * e.2) [MOD p] := by
      calc (c1 ^ e.1 % p) ^ e.2 ≡ (c1 ^ e.1) ^ e.2 [MOD p] := (Nat.mod_modEq _ p).pow _
        _ = c1 ^ (e.1 * e.2) := by rw [← pow_mul]
    exact h1.mul (prod_pow_mod p c1 L)

theorem thresholdFold_spec (p q : Nat) (hp : 1 < p) (indices : List Nat) (lam : Nat → Nat) :
    ∀ (partials : List (Nat × Nat)) (acc : Nat), acc < p →
      (∀ pd ∈ partials, lagrangeCoefficient pd.1 indices q = some (lam pd.1)) →
      ∃ r, partials.foldl (fun (a : Option Nat) pd =>
          a.bind fun c => (lagrangeCoefficient pd.1 indices q).map fun li =>
            c * powMod pd.2 li p % p) (some acc) = some r ∧ r < p ∧
        r ≡ acc * (partials.map fun pd => pd.2 ^ lam pd.1).prod [MOD p] := by
  intro partials
  induction partials with
  | nil =>
    intro acc hacc _
    exact ⟨acc, rfl, hacc, by simp [Nat.ModEq.refl]⟩
  | cons pd partials ih =>
    intro acc hacc hlam
    have hpd := hlam pd (List.mem_cons_self pd partials)
    rw [List.foldl_cons]
    have hstep : (Option.some acc).bind (fun c =>
        (lagrangeCoefficient pd.1 indices q).map fun li => c * powMod pd.2 li p % p)
        = some (acc * powMod pd.2 (lam pd.1) p % p) := by
      rw [hpd]
      rfl
    rw [hstep]
    obtain ⟨r, hr1, hr2, hr3⟩ := ih (acc * powMod pd.2 (lam pd.1) p % p)
      (Nat.mod_lt _ (by omega)) (fun e he => hlam e (List.mem_cons_of_mem pd he))
    refine ⟨r, hr1, hr2, ?_⟩
    simp only [List.map_cons, List.prod_cons]
    calc r ≡ acc * powMod pd.2 (lam pd.1) p % p
          * (partials.map fun e => e.2 ^ lam e.1).prod [MOD p] := hr3
      _ ≡ acc * powMod pd.2 (lam pd.1) p
          * (partials.map fun e => e.2 ^ lam e.1).prod [MOD p] :=
          (Nat.mod_modEq _ p).mul_right _
      _ = acc * (pd.2 ^ lam pd.1 % p) * (partials.map fun e => e.2 ^ lam e.1).prod := by
          rw [powMod_eq]
      _ ≡ acc * (pd.2 ^ lam pd.1) * (partials.map fun e => e.2 ^ lam e.1).prod [MOD p] :=
          (((Nat.mod_modEq _ p).mul_left acc).mul_right _)
      _ = acc * (pd.2 ^ lam pd.1 * (partials.map fun e => e.2 ^ lam e.1).prod) := by ring

theorem invert_dlog (pk : PublicKey) (E M : Nat) (hp : 1 < pk.p)
    (hgcd : Nat.gcd pk.g pk.p = 1)
    (hinj : ∀ a b, a < dlogBound → b < dlogBound →
      pk.g ^ a % pk.p = pk.g ^ b % pk.p → a = b)
    (hm : M < dlogBound) :
    (modInv (pk.g ^ E % pk.p) pk.p).bind
      (fun cinv => discreteLog (pk.g ^ (E + M) % pk.p * cinv % pk.p) pk) = some M := by
  have hg : Nat.Coprime pk.g pk.p := hgcd
  have hcop : Nat.gcd (pk.g ^ E % pk.p) pk.p = 1 := coprime_pow_mod hg E
  obtain ⟨v, hv⟩ := Option.isSome_iff_exists.mp (modInv_isSome hcop)
  rw [hv]
  have harg : pk.g ^ (E + M) % pk.p * v % pk.p = pk.g ^ M % pk.p := by
    have h1 : pk.g ^ E % pk.p * v ≡ 1 [MOD pk.p] := by
      show pk.g ^ E % pk.p * v % pk.p = 1 % pk.p
      exact modInv_mul (by omega) hv
    have h2 : pk.g ^ (E + M) % pk.p * v ≡ pk.g ^ M [MOD pk.p] := by
      calc pk.g ^ (E + M) % pk.p * v
          ≡ pk.g ^ (E + M) * v [MOD pk.p] := (Nat.mod_modEq _ _).mul_right v
        _ = pk.g ^ M * (pk.g ^ E * v) := by rw [pow_add]; ring
        _ ≡ pk.g ^ M * (pk.g ^ E % pk.p * v) [MOD pk.p] :=
            (((Nat.mod_modEq _ _).symm.mul_right v).mul_left _)
        _ ≡ pk.g ^ M * 1 [MOD pk.p] := h1.mul_left _
        _ = pk.g ^ M := mul_one _
    exact h2
  show discreteLog (pk.g ^ (E + M) % pk.p * v % pk.p) pk = some M
  rw [harg]
  exact discreteLog_pow pk M hp hg hinj hm

/-- Threshold decryption with the shares of any set of at least
`cs.length` distinct indices of the sharing with coefficient list
`cs = x :: rest` recovers the encrypted message. -/
theorem thresholdDecrypt_core (p q g x m r n : Nat) (rest S : List Nat)
    (hp : 1 < p) (hgcd : Nat.gcd g p = 1) (hq : Nat.Prime q)
    (hord : powMod g q p = 1) (hg1 : g % p ≠ 1) (hqN : dlogBound ≤ q)
    (hm : m < dlogBound) (hx : x < q) (hnq : n < q)
    (hnodup : S.Nodup) (hlen : (x :: rest).length ≤ S.length)
    (hrange : ∀ i ∈ S, 1 ≤ i ∧ i ≤ n) :
    thresholdDecrypt (encrypt { p := p, q := q, g := g, h := powMod g x p } m r)
      (S.map fun i =>
        { index := i, share := evalShare q (x :: rest) i,
          verificationPoint := powMod g (evalShare q (x :: rest) i) p })
      { p := p, q := q, g := g, h := powMod g x p } = some m := by
  have hq0 : 0 < q := hq.pos
  have hq10 : ∀ j ∈ S, 0 < j ∧ j < q := by
    intro j hj
    have := hrange j hj
    omega
  rw [encrypt_eq]
  set cs : List Nat := x :: rest with hcs
  set mk : Nat → KeyShare := fun i =>
    { index := i, share := evalShare q cs i,
      verificationPoint := powMod g (evalShare q cs i) p } with hmk
  simp only [thresholdDecrypt]
  have hcomp : ((fun s : KeyShare => (s.index, powMod (g ^ r % p) s.share p)) ∘ mk)
      = fun i : Nat => (i, powMod (g ^ r % p) (evalShare q cs i) p) := by
    funext i
    simp [hmk]
  have hPeq : List.map (fun s : KeyShare => (s.index, powMod (g ^ r % p) s.share p))
      (List.map mk S)
      = S.map fun i : Nat => (i, powMod (g ^ r % p) (evalShare q cs i) p) := by
    rw [List.map_map, hcomp]
  have hIeq : List.map Prod.fst
      (List.map (fun i : Nat => (i, powMod (g ^ r % p) (evalShare q cs i) p)) S) = S := by
    rw [List.map_map]
    have hid : (Prod.fst ∘ fun i : Nat => (i, powMod (g ^ r % p) (evalShare q cs i) p))
        = id := funext fun i => rfl
    rw [hid, List.map_id]
  rw [hPeq, hIeq]
  set P : List (Nat × Nat) :=
    S.map fun i : Nat => (i, powMod (g ^ r % p) (evalShare q cs i) p) with hP
  set lam : Nat → Nat := fun i => (lagrangeCoefficient i S q).getD 0 with hlam
  have hlamval : ∀ i ∈ S,
      lagrangeCoefficient i S q = some (lam i) ∧ ((lam i : Nat) : ZMod q) = lamCast q i S := by
    intro i hi
    have hiq : i < q := (hq10 i hi).2
    have hden := denProd_ne_zero q hq i S hiq fun j hj => (hq10 j hj).2
    obtain ⟨lam0, h1, _, h3⟩ := lagrangeCoefficient_spec q hq i S hden
    have hl : lam i = lam0 := by rw [hlam]; simp [h1]
    refine ⟨by rw [h1, hl], ?_⟩
    rw [hl, lamCast]
    exact h3
  obtain ⟨C, hfold, hCp, hCmod⟩ := thresholdFold_spec p q hp S lam P 1 (by omega)
    (by
      intro pd hpd
      obtain ⟨i, hi, rfl⟩ := List.mem_map.mp hpd
      exact (hlamval i hi).1)
  rw [hfold]
  -- the Lagrange-weighted exponent sum
  set T : Nat := (S.map fun i => evalShare q cs i * lam i).sum with hT
  have hTx : T ≡ x [MOD q] := by
    rw [← ZMod.natCast_eq_natCast_iff]
    rw [hT, Nat.cast_list_sum, List.map_map]
    have hcongr : ((fun n : Nat => (n : ZMod q)) ∘ fun i => evalShare q cs i * lam i)
        = fun i : Nat => ((evalShare q cs i : Nat) : ZMod q) * ((lam i : Nat) : ZMod q) := by
      funext i
      simp only [Function.comp_apply]
      push_cast
      ring
    rw [hcongr]
    have hcongr2 : S.map (fun i : Nat => ((evalShare q cs i : Nat) : ZMod q)
          * ((lam i : Nat) : ZMod q))
        = S.map fun i : Nat => ((evalShare q cs i : Nat) : ZMod q) * lamCast q i S := by
      apply List.map_congr_left
      intro i hi
      rw [(hlamval i hi).2]
    rw [hcongr2, lagrange_identity q hq cs (by rw [hcs]; simp) S hnodup hlen hq10]
    rw [hcs]
    simp
  have hc1ord : (g ^ r % p) ^ q % p = 1 := by
    rw [← Nat.pow_mod, ← pow_mul, mul_comm, pow_mul, Nat.pow_mod]
    have hordnat : g ^ q % p = 1 := by rw [← powMod_eq]; exact hord
    rw [hordnat, one_pow, Nat.mod_eq_of_lt hp]
  have hCval : C = g ^ (r * x) % p := by
    have hprodlist : P.map (fun pd => pd.2 ^ lam pd.1)
        = (S.map fun i : Nat => (evalShare q cs i, lam i)).map
            (fun e => ((g ^ r % p) ^ e.1 % p) ^ e.2) := by
      rw [hP, List.map_map, List.map_map]
      apply List.map_congr_left
      intro i _
      simp [powMod_eq]
    have hsumlist : ((S.map fun i : Nat => (evalShare q cs i, lam i)).map
        fun e => e.1 * e.2).sum = T := by
      rw [hT, List.map_map]
      rfl
    have hchain : C ≡ g ^ (r * x) [MOD p] := by
      calc C ≡ 1 * (P.map fun pd => pd.2 ^ lam pd.1).prod [MOD p] := hCmod
        _ = (P.map fun pd => pd.2 ^ lam pd.1).prod := one_mul _
        _ ≡ (g ^ r % p) ^ T [MOD p] := by
            rw [hprodlist]
            have := prod_pow_mod p (g ^ r % p)
              (S.map fun i : Nat => (evalShare q cs i, lam i))
            rw [hsumlist] at this
            exact this
        _ ≡ (g ^ r % p) ^ x [MOD p] := by
            show (g ^ r % p) ^ T % p = (g ^ r % p) ^ x % p
            exact pow_mod_congr hp hc1ord hTx
        _ ≡ (g ^ r) ^ x [MOD p] := (Nat.mod_modEq _ p).pow _
        _ = g ^ (r * x) := by rw [← pow_mul]
    have h6 : C % p = g ^ (r * x) % p := hchain
    rw [Nat.mod_eq_of_lt hCp] at h6
    exact h6
  show (modInv C p).bind
      (fun cinv => discreteLog (g ^ (x * r + m) % p * cinv % p)
        { p := p, q := q, g := g, h := powMod g x p }) = some m
  rw [hCval]
  have hexp : x * r + m = r * x + m := by ring
  rw [hexp]
  exact invert_dlog { p := p, q := q, g := g, h := powMod g x p } (r * x) m hp hgcd
    (dlog_inj_of_params hp hgcd hq hord hg1 hqN) hm

/-- C5 (amended, k-subset part).  Threshold decryption with the shares of
any `k`-subset of distinct indices of a degree-`(k-1)` sharing of `x`
(with `3 ≤ k ≤ n ≤ 10`) recovers the encrypted message. -/
theorem C5_threshold_decrypt (p q g x m r n : Nat) (rest S : List Nat)
    (hp : 1 < p) (hgcd : Nat.gcd g p = 1) (hq : Nat.Prime q)
    (hord : powMod g q p = 1) (hg1 : g % p ≠ 1) (hqN : dlogBound ≤ q)
    (hm : m < dlogBound) (hx : x < q)
    (hk3 : 3 ≤ (x :: rest).length) (hkn : (x :: rest).length ≤ n) (hn10 : n ≤ 10)
    (hnodup : S.Nodup) (hlen : S.length = (x :: rest).length)
    (hrange : ∀ i ∈ S, 1 ≤ i ∧ i ≤ n) :
    thresholdDecrypt (encrypt { p := p, q := q, g := g, h := powMod g x p } m r)
      (S.map fun i =>
        { index := i, share := evalShare q (x :: rest) i,
          verificationPoint := powMod g (evalShare q (x :: rest) i) p })
      { p := p, q := q, g := g, h := powMod g x p } = some m := by
  have hnq : n < q := by
    have hd : dlogBound = 10004569 := rfl
    omega
  exact thresholdDecrypt_core p q g x m r n rest S hp hgcd hq hord hg1 hqN hm hx hnq
    hnodup (le_of_eq hlen.symm) hrange

/-- Witness for C5: a (3,5) sharing of `x = 5` with coefficients
`[5, 1, 2]`, message `m = 7`, recombined from the index subset
`{1, 3, 5}` over the safe-prime group of the C2 witness. -/
theorem C5_threshold_decrypt_witness :
    (1 < 20010239 ∧ Nat.gcd 4 20010239 = 1 ∧ Nat.Prime 10005119 ∧
      powMod 4 10005119 20010239 = 1 ∧ 4 % 20010239 ≠ 1 ∧
      dlogBound ≤ 10005119 ∧ 7 < dlogBound ∧ (5 : Nat) < 10005119 ∧
      3 ≤ ([5, 1, 2] : List Nat).length ∧ ([5, 1, 2] : List Nat).length ≤ 5 ∧
      (5 : Nat) ≤ 10 ∧ ([1, 3, 5] : List Nat).Nodup ∧
      ([1, 3, 5] : List Nat).length = ([5, 1, 2] : List Nat).length ∧
      ∀ i ∈ ([1, 3, 5] : List Nat), 1 ≤ i ∧ i ≤ 5) ∧
    thresholdDecrypt
      (encrypt { p := 20010239, q := 10005119, g := 4, h := powMod 4 5 20010239 } 7 2)
      (([1, 3, 5] : List Nat).map fun i =>
        { index := i, share := evalShare 10005119 [5, 1, 2] i,
          verificationPoint := powMod 4 (evalShare 10005119 [5, 1, 2] i) 20010239 })
      { p := 20010239, q := 10005119, g := 4, h := powMod 4 5 20010239 } = some 7 :=
  ⟨⟨by decide, by decide, by norm_num, by decide, by decide, by decide, by decide,
    by decide, by decide, by decide, by decide, by decide, by decide, by decide⟩,
   C5_threshold_decrypt 20010239 10005119 4 5 7 2 5 [1, 2] [1, 3, 5] (by decide)
     (by decide) (by norm_num) (by decide) (by decide) (by decide) (by decide)
     (by decide) (by decide) (by decide) (by decide) (by decide) (by decide)
     (by decide)⟩

/-- Counterexample for C5 as stated: for the degenerate (3,5) sharing of
`x = 3` whose random coefficients were drawn as 0 (`coefficients
= [3, 0, 0]`), the 2-element share subset `{1, 2}` — one share short of
the threshold — does NOT fail: threshold decryption succeeds and returns
the message. -/
theorem C5_threshold_decrypt_counterexample :
    thresholdDecrypt
      (encrypt { p := 20010239, q := 10005119, g := 4, h := powMod 4 3 20010239 } 1 2)
      [{ index := 1, share := evalShare 10005119 [3, 0, 0] 1,
         verificationPoint := powMod 4 (evalShare 10005119 [3, 0, 0] 1) 20010239 },
       { index := 2, share := evalShare 10005119 [3, 0, 0] 2,
         verificationPoint := powMod 4 (evalShare 10005119 [3, 0, 0] 2) 20010239 }]
      { p := 20010239, q := 10005119, g := 4, h := powMod 4 3 20010239 } = some 1 := by
  have h1 : evalShare 10005119 [3, 0, 0] 1 = evalShare 10005119 [3] 1 := by decide
  have h2 : evalShare 10005119 [3, 0, 0] 2 = evalShare 10005119 [3] 2 := by decide
  rw [h1, h2]
  exact thresholdDecrypt_core 20010239 10005119 4 3 1 2 5 [] [1, 2] (by decide)
    (by decide) (by norm_num) (by decide) (by decide) (by decide) (by decide)
    (by decide) (by decide) (by decide) (by decide) (by decide)

set_option maxRecDepth 1000000

/-- C3 failing input: the honest prover's disjunctive proof for the bit
`b = 1` (message 1, randomness 2, prover draws `seed = "ab"`,
`k = 12345`, `fake_challenge = 777`, `fake_response = 888`) is REJECTED
by `verify_encryption_proof`, because the verifier recomputes the
Fiat–Shamir challenge from the `m = 0` branch reconstruction `(a0, b0)`
only and never uses the `m = 1` branch commitments `(a1, b1)` it
computes. -/
theorem C3_honest_proof_b1_rejected :
    verifyEncryptionProofData
      (encrypt { p := 20010239, q := 10005119, g := 4, h := powMod 4 5 20010239 } 1 2)
      (generateEncryptionProof
        (encrypt { p := 20010239, q := 10005119, g := 4, h := powMod 4 5 20010239 } 1 2)
        1 2 { p := 20010239, q := 10005119, g := 4, h := powMod 4 5 20010239 }
        "ab" 12345 777 888)
      { p := 20010239, q := 10005119, g := 4, h := powMod 4 5 20010239 } = false := by
  decide

/-! ## Merkle proof correctness -/

theorem getD_append_left {α : Type} {l l2 : List α} {n : Nat} (h : n < l.length) (d : α) :
    (l ++ l2).getD n d = l.getD n d := by
  simp only [List.getD_eq_getElem?_getD]
  rw [List.getElem?_append_left h]

theorem pairUp_length (z : String) :
    ∀ l : List String, (pairUp z l).length = (l.length + 1) / 2
  | [] => by simp [pairUp]
  | [_] => by simp [pairUp]
  | _ :: _ :: rest => by
    simp only [pairUp, List.length_cons, pairUp_length z rest]
    omega

theorem pairUp_getD (z : String) :
    ∀ (l : List String) (i : Nat), 2 * i + 1 < l.length →
      (pairUp z l).getD i "" = hashPair (l.getD (2 * i) "") (l.getD (2 * i + 1) "")
  | [], i, h => by simp at h
  | [_], i, h => by
    simp only [List.length_cons, List.length_nil] at h
    omega
  | a :: b :: rest, 0, _ => by simp [pairUp]
  | a :: b :: rest, i + 1, h => by
    have hr : 2 * i + 1 < rest.length := by
      simp only [List.length_cons] at h
      omega
    have e1 : 2 * (i + 1) = 2 * i + 1 + 1 := by omega
    rw [e1]
    show (pairUp z rest).getD i ""
      = hashPair ((a :: b :: rest).getD (2 * i + 1 + 1) "")
          ((a :: b :: rest).getD (2 * i + 1 + 1 + 1) "")
    simp only [List.getD_cons_succ]
    exact pairUp_getD z rest i hr

/-- Folding a leaf up the sibling path produced by `proofLoop` lands on
the head of the fully-hashed level. -/
theorem proofLoop_fold (d : Nat) :
    ∀ (lvl : List String) (idx level : Nat), lvl.length = 2 ^ d → idx < 2 ^ d →
      (((proofLoop d level idx lvl).1.zip (proofLoop d level idx lvl).2).foldl
        (fun cur si => if si.2 = 0 then hashPair cur si.1 else hashPair si.1 cur)
        (lvl.getD idx ""))
      = (levelsLoop d level lvl).headD "" := by
  induction d with
  | zero =>
    intro lvl idx level hlen hidx
    have hidx0 : idx = 0 := by omega
    subst hidx0
    have h1 : lvl.length = 1 := by simpa using hlen
    obtain ⟨a, rfl⟩ := List.length_eq_one.mp h1
    rfl
  | succ d ih =>
    intro lvl idx level hlen hidx
    rw [proofLoop]
    simp only [List.zip_cons_cons, List.foldl_cons]
    rw [levelsLoop]
    have hplen : (pairUp (zeroHash level) lvl).length = 2 ^ d := by
      rw [pairUp_length, hlen]
      have h2 : (0 : Nat) < 2 ^ d := Nat.pos_pow_of_pos d (by omega)
      rw [pow_succ]
      omega
    have hpidx : idx / 2 < 2 ^ d := by
      rw [pow_succ] at hidx
      omega
    have hstep :
        (if (if idx % 2 = 0 then 0 else 1) = 0 then
          hashPair (lvl.getD idx "")
            (if (if idx % 2 = 0 then idx + 1 else idx - 1) < lvl.length
              then lvl.getD (if idx % 2 = 0 then idx + 1 else idx - 1) ""
              else zeroHash level)
        else
          hashPair
            (if (if idx % 2 = 0 then idx + 1 else idx - 1) < lvl.length
              then lvl.getD (if idx % 2 = 0 then idx + 1 else idx - 1) ""
              else zeroHash level)
            (lvl.getD idx ""))
        = (pairUp (zeroHash level) lvl).getD (idx / 2) "" := by
      by_cases hpar : idx % 2 = 0
      · have hsib : idx + 1 < lvl.length := by
          rw [hlen, pow_succ]
          omega
        have hc1 : (if idx % 2 = 0 then (0 : Nat) else 1) = 0 := by rw [if_pos hpar]
        have hc2 : (if idx % 2 = 0 then idx + 1 else idx - 1) = idx + 1 := by
          rw [if_pos hpar]
        rw [hc2, hc1, if_pos rfl, if_pos hsib]
        rw [pairUp_getD (zeroHash level) lvl (idx / 2) (by omega)]
        have e1 : 2 * (idx / 2) = idx := by omega
        rw [e1]
      · have hsib : idx - 1 < lvl.length := by
          rw [hlen]
          omega
        have hc1 : (if idx % 2 = 0 then (0 : Nat) else 1) = 1 := by rw [if_neg hpar]
        have hc2 : (if idx % 2 = 0 then idx + 1 else idx - 1) = idx - 1 := by
          rw [if_neg hpar]
        rw [hc2, hc1, if_neg (by omega : ¬(1 : Nat) = 0), if_pos hsib]
        rw [pairUp_getD (zeroHash level) lvl (idx / 2) (by omega)]
        have e1 : 2 * (idx / 2) = idx - 1 := by omega
        rw [e1]
        have e2 : idx - 1 + 1 = idx := by omega
        rw [e2]
    rw [hstep]
    exact ih (pairUp (zeroHash level) lvl) (idx / 2) (level + 1) hplen hpidx

/-- C9: for every Merkle tree holding at most `2 ^ depth` leaves and every
leaf index `i < leaves.length`, `get_proof i` succeeds, and verifying
`leaves[i]` against the returned sibling path and direction bits and the
root returned by `get_root` succeeds. -/
theorem C9_merkle_verify_proof (t : MerkleTree) (i : Nat)
    (hcap : t.leaves.length ≤ 2 ^ t.depth) (hi : i < t.leaves.length) :
    ∃ pr : List String × List Nat,
      getProof t i = some pr ∧
      verifyProof (t.leaves.getD i "") pr.1 pr.2 (getRoot t) = true := by
  refine ⟨proofLoop t.depth 0 i (padded t), ?_, ?_⟩
  · rw [getProof, if_neg (by omega)]
  · have hplen : (padded t).length = 2 ^ t.depth := by
      simp only [padded, List.length_append, List.length_replicate]
      omega
    have hpidx : i < 2 ^ t.depth := lt_of_lt_of_le hi hcap
    have hne : ¬ (t.leaves.isEmpty = true) := by
      cases h : t.leaves with
      | nil => rw [h] at hi; simp at hi
      | cons a l => simp [h]
    have hleaf : (padded t).getD i "" = t.leaves.getD i "" :=
      getD_append_left hi ""
    simp only [verifyProof, getRoot, if_neg hne]
    rw [← hleaf, proofLoop_fold t.depth (padded t) i 0 hplen hpidx]
    exact beq_self_eq_true _

theorem C9_merkle_verify_proof_witness :
    (⟨2, ["a", "b", "c"]⟩ : MerkleTree).leaves.length ≤ 2 ^ 2 ∧
    1 < (⟨2, ["a", "b", "c"]⟩ : MerkleTree).leaves.length ∧
    ∃ pr : List String × List Nat,
      getProof ⟨2, ["a", "b", "c"]⟩ 1 = some pr ∧
      verifyProof ((⟨2, ["a", "b", "c"]⟩ : MerkleTree).leaves.getD 1 "")
        pr.1 pr.2 (getRoot ⟨2, ["a", "b", "c"]⟩) = true :=
  ⟨by decide, by decide,
    C9_merkle_verify_proof ⟨2, ["a", "b", "c"]⟩ 1 (by decide) (by decide)⟩

/-- C6 (corrected): `update_status` accepts exactly the edges of the
`valid_transitions` table, and a transition into `active` additionally
requires `election_public_key` set, `voter_merkle_root` set, and at
least 2 candidates; every rejection leaves the election unchanged and
every acceptance sets the new status.  Contrary to the claim, the
`pending → active` guard checks neither trustee commitments nor
`now ≥ start_time` (see the counterexample). -/
theorem C6_update_status (e : Election) (ns : ElectionStatus) :
    ((updateStatus e ns).1 = true ↔
      (validTransitions e.status).contains ns = true ∧
      (ns = ElectionStatus.active →
        optStrSet e.electionPublicKey = true ∧
        optStrSet e.voterMerkleRoot = true ∧
        2 ≤ e.candidates.length)) ∧
    ((updateStatus e ns).1 = false → (updateStatus e ns).2.2 = e) ∧
    ((updateStatus e ns).1 = true → (updateStatus e ns).2.2.status = ns) := by
  simp only [updateStatus]
  split_ifs with h1 h2 h3 h4 <;> refine ⟨?_, ?_, ?_⟩ <;> simp_all

/-- A `pending` election whose `start_time` lies far in the future and
which has no trustee data is nevertheless moved to `active`:
`update_status` never consults the clock or trustee commitments. -/
theorem C6_update_status_counterexample :
    updateStatus
      { id := 1, status := ElectionStatus.pending, startTime := some 99999999999,
        endTime := none, votingMode := VotingMode.single, maxCandidatesPerVoter := 1,
        maxVotesPerCandidate := 1, voterMerkleRoot := some "root",
        electionPublicKey := some "pk", candidates := ["a", "b"] }
      ElectionStatus.active
    = (true, none,
      { id := 1, status := ElectionStatus.active, startTime := some 99999999999,
        endTime := none, votingMode := VotingMode.single, maxCandidatesPerVoter := 1,
        maxVotesPerCandidate := 1, voterMerkleRoot := some "root",
        electionPublicKey := some "pk", candidates := ["a", "b"] }) := by
  decide

/-- C7 (code bug): the `issue_vote_token` duplicate-token query filters
only on `election_id`, `is_used == False` and `expires_at > now` — it
never constrains the token to the requesting voter.  With one unused,
unexpired token on the books (here with voter reference `"alice-ref"`),
*every* user — whoever they are, whatever `secrets` draws — is refused a
token for that election with "Active token already exists", and the
store is left unchanged. -/
theorem C7_issue_token_blocked_by_other_voter :
    ∀ userId nowIso rawToken : String,
      issueVoteToken
        { elections := [{ id := 7, status := ElectionStatus.active,
                          startTime := some 0, endTime := some 1000,
                          votingMode := VotingMode.single, maxCandidatesPerVoter := 1,
                          maxVotesPerCandidate := 1, voterMerkleRoot := some "r",
                          electionPublicKey := some "k", candidates := ["a", "b"] }],
          tokens := [{ electionId := 7, tokenHash := "alice-token-hash",
                       expiresAt := 500, usedAt := none, isUsed := false,
                       encryptedVoterRef := "alice-ref" }],
          receipts := [], participations := [], auditLogs := [] }
        userId 7 100 nowIso rawToken
      = ((none, none, some "Active token already exists"),
        { elections := [{ id := 7, status := ElectionStatus.active,
                          startTime := some 0, endTime := some 1000,
                          votingMode := VotingMode.single, maxCandidatesPerVoter := 1,
                          maxVotesPerCandidate := 1, voterMerkleRoot := some "r",
                          electionPublicKey := some "k", candidates := ["a", "b"] }],
          tokens := [{ electionId := 7, tokenHash := "alice-token-hash",
                       expiresAt := 500, usedAt := none, isUsed := false,
                       encryptedVoterRef := "alice-ref" }],
          receipts := [], participations := [], auditLogs := [] }) :=
  fun _ _ _ => rfl

/-- C1 (corrected): a submission that passes the token, state, nullifier
and proof checks but whose ledger append raises (`ledgerResult = none`)
is NOT rolled back.  `_submit_to_blockchain` swallows the error, and
`submit_vote` commits: it returns success, consumes the token
(`is_used := true`, `used_at := now`), and stores a receipt whose
`blockchain_tx_id`, `block_number` and `confirmed_at` are all null. -/
theorem C1_submit_ledger_failure (db : DBState) (electionId : Nat)
    (voteToken encryptedVote nullifier eligibilityProof validityProof : String)
    (sels : List (String × Nat)) (userId : String) (now : Nat)
    (verificationCode : String) (tok : VoteTokenRec) (e : Election)
    (hfind : db.tokens.find? (fun t =>
      t.tokenHash == hashVoteToken voteToken && t.electionId == electionId
        && t.isUsed == false) = some tok)
    (hexp : ¬ tok.expiresAt < now)
    (hel : db.elections.find? (fun el => el.id == electionId) = some e)
    (hact : isActive e now = true)
    (hpart : db.participations.find? (fun pr =>
      pr.voterHash == getVoterHash userId electionId && pr.electionId == electionId
        && pr.votingPeriod == 0) = none)
    (hnul : db.receipts.find? (fun r =>
      r.electionId == electionId && r.nullifierHash == nullifier) = none) :
    submitVoteSingle db electionId voteToken encryptedVote nullifier
      eligibilityProof validityProof sels userId now true true none verificationCode
    = ((true, none),
      { db with
        receipts := db.receipts ++
          [{ electionId := electionId, verificationCode := verificationCode,
             votingPeriod := 0, encryptedVoteHash := sha256HexStr encryptedVote,
             nullifierHash := nullifier, blockchainTxId := none, blockNumber := none,
             eligibilityProofHash := sha256HexStr eligibilityProof,
             validityProofHash := sha256HexStr validityProof, confirmedAt := none }],
        participations := db.participations ++
          [{ electionId := electionId, voterHash := getVoterHash userId electionId,
             votingPeriod := 0,
             votesByCandidate := sels.foldl (fun m s => setAssoc m s.1 s.2) [],
             totalVotesCast := if sels.isEmpty then 1 else (sels.map Prod.snd).sum }],
        tokens := updateWhere db.tokens
          (fun t => t.tokenHash == hashVoteToken voteToken
            && t.electionId == electionId && t.isUsed == false)
          (fun t => { t with isUsed := true, usedAt := some now }),
        auditLogs := db.auditLogs ++
          [{ electionId := electionId, action := "vote_submitted",
             actionHash := sha256HexStr encryptedVote }] }) := by
  simp only [submitVoteSingle, hfind, hel, hpart, hnul]
  simp [hexp, hact, submitToBlockchain]

set_option maxRecDepth 2000000

/-- Witness for C1 at a concrete store: one active election, one fresh
token, empty receipt/participation tables, ledger call raising. -/
theorem C1_submit_ledger_failure_witness :
    submitVoteSingle
      { elections := [{ id := 7, status := ElectionStatus.active,
                        startTime := some 0, endTime := some 1000,
                        votingMode := VotingMode.single, maxCandidatesPerVoter := 1,
                        maxVotesPerCandidate := 1, voterMerkleRoot := some "r",
                        electionPublicKey := some "k", candidates := ["a", "b"] }],
        tokens := [{ electionId := 7, tokenHash := hashVoteToken "tok",
                     expiresAt := 500, usedAt := none, isUsed := false,
                     encryptedVoterRef := "ref" }],
        receipts := [], participations := [], auditLogs := [] }
      7 "tok" "ev" "nul" "ep" "vp" [("a", 1)] "bob" 100 true true none "vc"
    = ((true, none),
      { elections := [{ id := 7, status := ElectionStatus.active,
                        startTime := some 0, endTime := some 1000,
                        votingMode := VotingMode.single, maxCandidatesPerVoter := 1,
                        maxVotesPerCandidate := 1, voterMerkleRoot := some "r",
                        electionPublicKey := some "k", candidates := ["a", "b"] }],
        tokens := [{ electionId := 7, tokenHash := hashVoteToken "tok",
                     expiresAt := 500, usedAt := some 100, isUsed := true,
                     encryptedVoterRef := "ref" }],
        receipts := [{ electionId := 7, verificationCode := "vc", votingPeriod := 0,
                       encryptedVoteHash := sha256HexStr "ev", nullifierHash := "nul",
                       blockchainTxId := none, blockNumber := none,
                       eligibilityProofHash := sha256HexStr "ep",
                       validityProofHash := sha256HexStr "vp", confirmedAt := none }],
        participations := [{ electionId := 7, voterHash := getVoterHash "bob" 7,
                             votingPeriod := 0, votesByCandidate := [("a", 1)],
                             totalVotesCast := 1 }],
        auditLogs := [{ electionId := 7, action := "vote_submitted",
                        actionHash := sha256HexStr "ev" }] }) := by
  rw [C1_submit_ledger_failure _ 7 "tok" "ev" "nul" "ep" "vp" [("a", 1)] "bob" 100 "vc"
    { electionId := 7, tokenHash := hashVoteToken "tok", expiresAt := 500,
      usedAt := none, isUsed := false, encryptedVoterRef := "ref" }
    { id := 7, status := ElectionStatus.active, startTime := some 0,
      endTime := some 1000, votingMode := VotingMode.single,
      maxCandidatesPerVoter := 1, maxVotesPerCandidate := 1,
      voterMerkleRoot := some "r", electionPublicKey := some "k",
      candidates := ["a", "b"] }
    (by decide) (by decide) (by decide) (by decide) (by decide) (by decide)]
  decide

/-- Counterexample to the claimed rollback, evaluated from scratch: with
the ledger call raising, the submission still succeeds, the only token
ends up used at time 100, and the stored receipt has no transaction id
and no confirmation time. -/
theorem C1_submit_ledger_failure_counterexample :
    (fun r : (Bool × Option String) × DBState =>
      (r.1, r.2.tokens.map fun t => (t.isUsed, t.usedAt),
        r.2.receipts.map fun rc => (rc.blockchainTxId, rc.confirmedAt)))
    (submitVoteSingle
      { elections := [{ id := 7, status := ElectionStatus.active,
                        startTime := some 0, endTime := some 1000,
                        votingMode := VotingMode.single, maxCandidatesPerVoter := 1,
                        maxVotesPerCandidate := 1, voterMerkleRoot := some "r",
                        electionPublicKey := some "k", candidates := ["a", "b"] }],
        tokens := [{ electionId := 7, tokenHash := hashVoteToken "tok",
                     expiresAt := 500, usedAt := none, isUsed := false,
                     encryptedVoterRef := "ref" }],
        receipts := [], participations := [], auditLogs := [] }
      7 "tok" "ev" "nul" "ep" "vp" [("a", 1)] "bob" 100 true true none "vc")
    = ((true, none), [(true, some 100)], [(none, none)]) := by
  decide

/-- C10: `verify_encryption_proof` catches every parse/extraction
failure at its public interface — whenever the proof string does not
yield a well-formed proof payload of c0, c1, r0, r1 and seed
(`parseProof` returns `none`: invalid JSON or a missing field), the
verifier returns `false` rather than raising. -/
theorem C10_verify_proof_parse_failure (ct : Ciphertext) (s : String) (pk : PublicKey)
    (h : parseProof s = none) : verifyEncryptionProofStr ct s pk = false := by
  simp [verifyEncryptionProofStr, h]

/-- Witness for C10: a non-JSON string and a JSON object missing the
`seed` field are both rejected with `false`. -/
theorem C10_verify_proof_parse_failure_witness :
    parseProof "not a json proof" = none ∧
    verifyEncryptionProofStr { c1 := 1, c2 := 2 } "not a json proof"
      { p := 23, q := 11, g := 2, h := 4 } = false ∧
    parseProof "\x7b\"c0\": 1, \"c1\": 2, \"r0\": 3, \"r1\": 4\x7d" = none ∧
    verifyEncryptionProofStr { c1 := 1, c2 := 2 }
      "\x7b\"c0\": 1, \"c1\": 2, \"r0\": 3, \"r1\": 4\x7d"
      { p := 23, q := 11, g := 2, h := 4 } = false :=
  ⟨by decide, C10_verify_proof_parse_failure _ _ _ (by decide), by decide,
    C10_verify_proof_parse_failure _ _ _ (by decide)⟩

end Vote
